import Mathlib

/-!
Verification development for the CHILDES kinship-term classification toolkit.

The definitions below are a shallow embedding of the Python sources, chiefly
`childes/compute_childes_kinship_vocative.py` (lexicon, surface normalizer,
multiword collapse, determiner/genitive detection, the per-utterance
classification loop, per-million rates), `childes/check_aunt_mor.py`
(the windowed morphological-tier search of `analyse_file_with_mor`),
`childes/plot_vocative_bare_correlation.py` (`ranks`, `pearson`, `spearman`)
and `childes/vocative_uncertainty_analysis.py` (rate computations).

Conventions of the embedding:
- Python strings are Lean `String`s; the few suffix strings containing an
  apostrophe or a right single quote are built from `Char.ofNat` so that the
  character codes are explicit (39 = apostrophe, 8217 = right single quote).
- Python `str.lower` is modelled as ASCII lowercasing, which agrees with it on
  every token the tokenizer can produce (`[A-Za-z]` words with `-` and `'`).
- `while` loops walking an index are modelled either structurally on the list
  or with a fuel parameter bounded by the list length; callers always supply
  sufficient fuel, so the fuel-0 branch is unreachable.
- Python floats are modelled as `ℚ` where the code only does field arithmetic
  and as `ℝ` where `math.sqrt` is involved (`pearson`).
-/

namespace Kinship

/-- Code point 39, the ASCII apostrophe. -/
def apoChar : Char := Char.ofNat 39

/-- Code point 8217, the Unicode right single quotation mark. -/
def rsquoChar : Char := Char.ofNat 8217

/-- ASCII lowercasing of one character, the effect of Python `str.lower` on
the alphabet the tokenizer admits. -/
def lowerChar (c : Char) : Char :=
  if 65 ≤ c.toNat ∧ c.toNat ≤ 90 then Char.ofNat (c.toNat + 32) else c

/-- `tok.lower()` on ASCII material. -/
def strLower (s : String) : String := ⟨s.data.map lowerChar⟩

/-- `t.endswith(suf)` with the suffix given as an explicit char list. -/
def endsWithStr (s : String) (suf : List Char) : Prop := suf <:+ s.data

instance (s : String) (suf : List Char) : Decidable (endsWithStr s suf) :=
  inferInstanceAs (Decidable (suf <:+ s.data))

/-- `t[:-n]`: drop the last `n` characters (all of them when `n ≥ len`). -/
def dropRightStr (s : String) (n : ℕ) : String := ⟨s.data.take (s.data.length - n)⟩

/-- Suffix `'s` (apostrophe + s). -/
def aposS : List Char := [apoChar, 's']

/-- Suffix right-single-quote + `s`. -/
def rsquoS : List Char := [rsquoChar, 's']

/-- Suffix `s` + apostrophe. -/
def sApos : List Char := ['s', apoChar]

/-- The broad North American kinship list `KINSHIP` of
`compute_childes_kinship_vocative.py`. -/
def KINSHIP : List String := [
  "mom", "mommy", "momma", "mama", "ma", "mother",
  "dad", "daddy", "dada", "papa", "pa", "father",
  "parent",
  "grandma", "grandpa", "granny", "gramma", "nana", "grandmom", "grandmommy",
  "grandmother", "grandfather", "granddad", "granddaddy", "gramps", "grampa",
  "grandpapa", "grandmama", "grandparent",
  "aunt", "auntie", "aunty", "uncle", "cousin", "niece", "nephew",
  "brother", "sister", "sibling", "sissy",
  "son", "daughter", "grandchild", "grandson", "granddaughter",
  "stepmom", "stepdad", "stepmother", "stepfather", "stepsister",
  "stepbrother", "stepson", "stepdaughter", "stepchild"]

/-- `TITLE_KINSHIP`: terms commonly appearing in title+name constructions. -/
def TITLE_KINSHIP : List String := [
  "aunt", "auntie", "aunty", "uncle", "brother", "sister",
  "grandma", "grandpa", "granny", "gramma", "nana", "grandmom", "grandmommy",
  "grandmother", "grandfather", "granddad", "granddaddy", "gramps", "grampa",
  "grandpapa", "grandmama",
  "mama", "papa"]

/-- The `MULTIWORD` dictionary: two-part compounds and their collapsed lexeme. -/
def MULTIWORD : List ((String × String) × String) := [
  (("grand", "ma"), "grandma"),
  (("grand", "mom"), "grandmom"),
  (("grand", "mommy"), "grandmommy"),
  (("grand", "mother"), "grandmother"),
  (("grand", "pa"), "grandpa"),
  (("grand", "dad"), "granddad"),
  (("grand", "daddy"), "granddaddy"),
  (("grand", "father"), "grandfather"),
  (("grand", "papa"), "grandpapa"),
  (("grand", "mama"), "grandmama"),
  (("step", "mom"), "stepmom"),
  (("step", "dad"), "stepdad"),
  (("step", "mother"), "stepmother"),
  (("step", "father"), "stepfather"),
  (("step", "sister"), "stepsister"),
  (("step", "brother"), "stepbrother"),
  (("step", "son"), "stepson"),
  (("step", "daughter"), "stepdaughter"),
  (("step", "child"), "stepchild")]

/-- `MULTI_COMPONENTS`: every first and second component of a compound. -/
def MULTI_COMPONENTS : List String :=
  MULTIWORD.map (fun e => e.1.1) ++ MULTIWORD.map (fun e => e.1.2)

/-- The `DISCOURSE` particle set. -/
def DISCOURSE : List String := [
  "hey", "hi", "hello", "oh", "okay", "ok", "yeah", "yep", "yes", "no",
  "please", "well", "uh", "um", "huh", "hm", "hmm", "mm"]

/-- The `DETERMINERS` set. -/
def DETERMINERS : List String := [
  "a", "an", "the",
  "this", "that", "these", "those",
  "my", "your", "his", "her", "our", "their", "its", "whose",
  "some", "any", "no", "each", "every", "either", "neither", "both", "all",
  "much", "many", "few", "several", "another", "other", "such", "one"]

/-- The `CONJ` set. -/
def CONJ : List String := ["and", "or"]

/-- `NOISE_RE.fullmatch`: three or more characters, all drawn from x/y/w. -/
def isNoise (s : String) : Bool :=
  decide (3 ≤ s.data.length) &&
    s.data.all (fun c => c = 'x' || c = 'y' || c = 'w')

/-- The possessive-stripping stage of `norm_surface` (the leading
`if/elif` block): strip `'s`, the right-quote variant, or `s'` when the base
is a known lexeme or a known compound component; otherwise leave `t` alone.
The right-quote disjunct follows the canonical variant of `norm_surface` in
`vocative_uncertainty_analysis.py` (U+2019); the copy in
`compute_childes_kinship_vocative.py` repeats the ASCII apostrophe there,
which is indistinguishable on the tokenizer's output (words never contain a
right quote). -/
def possStrip (t : String) : String :=
  if endsWithStr t aposS ∨ endsWithStr t rsquoS then
    (if dropRightStr t 2 ∈ KINSHIP ∨ dropRightStr t 2 ∈ MULTI_COMPONENTS then
      dropRightStr t 2
    else t)
  else if endsWithStr t sApos then
    (if dropRightStr t 1 ∈ KINSHIP ∨ dropRightStr t 1 ∈ MULTI_COMPONENTS then
      dropRightStr t 1
    else t)
  else t

/-- `norm_surface`: lowercase, strip possessives, then strip a regular plural
suffix (`-ies→-y`, `-es`, `-s`) when the base is a known lexeme (of length
at least 3 for the `-es`/`-s` branches, as in the source). -/
def norm_surface (tok : String) : String :=
  let t := possStrip (strLower tok)
  if endsWithStr t ['i', 'e', 's'] ∧ dropRightStr t 3 ++ "y" ∈ KINSHIP then
    dropRightStr t 3 ++ "y"
  else if endsWithStr t ['e', 's'] ∧ dropRightStr t 2 ∈ KINSHIP ∧
      3 ≤ (dropRightStr t 2).data.length then
    dropRightStr t 2
  else if endsWithStr t ['s'] ∧ dropRightStr t 1 ∈ KINSHIP ∧
      3 ≤ (dropRightStr t 1).data.length then
    dropRightStr t 1
  else t

/-- `has_genitive`: the lowercased token ends with `'s`, the right-quote
variant, or `s'`. -/
def has_genitive (tok : String) : Bool :=
  decide (endsWithStr (strLower tok) aposS) ||
    decide (endsWithStr (strLower tok) rsquoS) ||
    decide (endsWithStr (strLower tok) sApos)

/-- `is_comma_adjacent`: the original token just before `startIdx` or just
after `endIdx` is a comma. -/
def is_comma_adjacent (tokens : List String) (startIdx endIdx : ℕ) : Bool :=
  (decide (0 < startIdx) && decide (tokens.getD (startIdx - 1) "" = ",")) ||
    (decide (endIdx + 1 < tokens.length) &&
      decide (tokens.getD (endIdx + 1) "" = ","))

/-- Lookup of an adjacent pair in the `MULTIWORD` dictionary. -/
def mwLookup (a b : String) : Option String :=
  (MULTIWORD.find? (fun e => decide (e.1.1 = a) && decide (e.1.2 = b))).map
    (fun e => e.2)

/-- `collapse_multiword`: the while-loop that greedily replaces an adjacent
pair registered in `MULTIWORD` by its compound and advances by two positions,
otherwise advances by one. -/
def collapse_multiword : List String → List String
  | [] => []
  | [x] => [x]
  | x :: y :: rest =>
    match mwLookup x y with
    | some lex => lex :: collapse_multiword rest
    | none => x :: collapse_multiword (y :: rest)

/-- `collapse_with_spans` of `vocative_uncertainty_analysis.py`: the same walk
but emitting `(lexeme, start, end)` items; the extra argument is the running
index `i` of the while-loop (the top-level call starts at 0). -/
def collapse_with_spans : List String → ℕ → List (String × ℕ × ℕ)
  | [], _ => []
  | [x], i => [(x, i, i)]
  | x :: y :: rest, i =>
    match mwLookup x y with
    | some lex => (lex, i, i + 1) :: collapse_with_spans rest (i + 2)
    | none => (x, i, i) :: collapse_with_spans (y :: rest) (i + 1)

/-- `has_determiner`: the term's own raw token is genitive, or the previous
normalized word is a determiner or its raw form genitive, or the coordination
pattern determiner/genitive + kinship + and/or + (this term) holds. -/
def has_determiner (word_norm word_raw : List String) (idx : ℕ) : Bool :=
  if has_genitive (word_raw.getD idx "") then true
  else if 1 ≤ idx ∧ (word_norm.getD (idx - 1) "" ∈ DETERMINERS ∨
      has_genitive (word_raw.getD (idx - 1) "") = true) then true
  else if 1 ≤ idx ∧ word_norm.getD (idx - 1) "" ∈ CONJ ∧ 3 ≤ idx ∧
      word_norm.getD (idx - 2) "" ∈ KINSHIP ∧
      (word_norm.getD (idx - 3) "" ∈ DETERMINERS ∨
        has_genitive (word_raw.getD (idx - 3) "") = true) then true
  else false

/-- `is_followed_by_proper_noun`: the morphological entry after `idx` carries
the part-of-speech tag `n:prop`. -/
def is_followed_by_proper_noun (mor : List (String × String)) (idx : ℕ) : Bool :=
  if idx + 1 < mor.length then
    decide ((mor.getD (idx + 1) ("", "")).1 = "n:prop")
  else false

/-- The `is_title_name` test of `compute`: the lexeme is in `TITLE_KINSHIP`,
the morphological tier is present, the expected position is in range and its
successor entry is tagged `n:prop`. -/
def titleTest (mor : List (String × String)) (lex : String) (midx : ℕ) : Bool :=
  decide (lex ∈ TITLE_KINSHIP) && !mor.isEmpty && decide (midx < mor.length) &&
    is_followed_by_proper_noun mor midx

/-- A character matched by `[A-Za-z]`. -/
def isLetterChar (c : Char) : Bool :=
  (decide ('A' ≤ c) && decide (c ≤ 'Z')) || (decide ('a' ≤ c) && decide (c ≤ 'z'))

/-- A punctuation character matched by `[.,!?]`. -/
def isPunctChar (c : Char) : Bool :=
  c = '.' || c = ',' || c = '!' || c = '?'

/-- A word-internal separator (`-` or apostrophe) of `WORD_RE`. -/
def isSepChar (c : Char) : Bool := c = '-' || c = apoChar

/-- Maximal prefix of letters, returning it and the remainder. -/
def takeLetters : List Char → List Char × List Char
  | [] => ([], [])
  | c :: cs =>
    if isLetterChar c then
      let p := takeLetters cs
      (c :: p.1, p.2)
    else ([], c :: cs)

/-- The greedy continuation `(?:[-'][A-Za-z]+)*` of `WORD_RE`: consume a
separator followed by letters, as often as possible (fuel-bounded, with fuel
at least the length of the input). -/
def scanWordExt : ℕ → List Char → List Char × List Char
  | 0, cs => ([], cs)
  | fuel + 1, cs =>
    match cs with
    | sep :: c :: rest =>
      if isSepChar sep && isLetterChar c then
        let p := takeLetters (c :: rest)
        let q := scanWordExt fuel p.2
        (sep :: (p.1 ++ q.1), q.2)
      else ([], cs)
    | _ => ([], cs)

/-- `TOKEN_RE.findall`: scan the character stream, emitting maximal
`WORD_RE`-shaped words and single punctuation marks `.,!?`, skipping
everything else (fuel-bounded). -/
def tokenizeAux : ℕ → List Char → List String
  | 0, _ => []
  | fuel + 1, cs =>
    match cs with
    | [] => []
    | c :: rest =>
      if isLetterChar c then
        let p := takeLetters (c :: rest)
        let q := scanWordExt p.2.length p.2
        String.mk (p.1 ++ q.1) :: tokenizeAux fuel q.2
      else if isPunctChar c then String.mk [c] :: tokenizeAux fuel rest
      else tokenizeAux fuel rest

/-- All tokens of an utterance, words and `.,!?` punctuation. -/
def tokenize (utter : String) : List String :=
  tokenizeAux (utter.data.length + 1) utter.data

/-- `WORD_RE.fullmatch`: the whole token is letters with optional
separator-joined letter groups. -/
def wordFullmatch (s : String) : Bool :=
  match s.data with
  | [] => false
  | c :: cs =>
    isLetterChar c &&
      (let p := takeLetters (c :: cs)
       let q := scanWordExt p.2.length p.2
       q.2.isEmpty)

/-- A classification label; exactly the three values an occurrence can get. -/
inductive Label
  | vocative
  | bareArgument
  | determinedArgument
deriving DecidableEq, Repr

/-- One classified kinship-term occurrence: its lexeme, label, the original
token positions it spans (`startTok`/`endTok`, for comma adjacency), its
position `wnIdx` in the normalized word sequence (which is also the expected
morphological-tier index of the classifier), and whether it was recognized as
a two-token multiword compound. -/
structure Occ where
  lex : String
  label : Label
  startTok : ℕ
  endTok : ℕ
  wnIdx : ℕ
  isCompound : Bool
deriving DecidableEq, Repr

/-- The single-token branch of the classification loop in `compute`:
vocative test, then determiner test, then the title+name override, else bare.
`midx` is the running morphological-tier index `mor_word_idx`. -/
def classifySingle (tokens word_norm word_raw : List String) (wti : List ℕ)
    (mor : List (String × String)) (sa : Bool) (idx midx : ℕ) : List Occ :=
  let lex := word_norm.getD idx ""
  if lex ∈ KINSHIP then
    let st0 := wti.getD idx 0
    let isv := sa || is_comma_adjacent tokens st0 st0
    let lab :=
      if isv then Label.vocative
      else if has_determiner word_norm word_raw idx then Label.determinedArgument
      else if titleTest mor lex midx then Label.determinedArgument
      else Label.bareArgument
    [{ lex := lex, label := lab, startTok := st0, endTok := st0,
       wnIdx := idx, isCompound := false }]
  else []

/-- The classification while-loop of `compute` (lines 264–324): walk the
normalized words from `idx`, consuming a registered multiword pair atomically
(two positions, no title+name check) and otherwise one single word.  The fuel
is an upper bound on the remaining iterations; callers pass the word count. -/
def classifyFrom (tokens word_norm word_raw : List String) (wti : List ℕ)
    (mor : List (String × String)) (sa : Bool) :
    ℕ → ℕ → ℕ → List Occ
  | 0, _, _ => []
  | fuel + 1, idx, midx =>
    if idx < word_norm.length then
      if idx + 1 < word_norm.length then
        match mwLookup (word_norm.getD idx "") (word_norm.getD (idx + 1) "") with
        | some lex =>
          (if lex ∈ KINSHIP then
            let st0 := wti.getD idx 0
            let en0 := wti.getD (idx + 1) 0
            let isv := sa || is_comma_adjacent tokens st0 en0
            let lab :=
              if isv then Label.vocative
              else if has_determiner word_norm word_raw idx then
                Label.determinedArgument
              else Label.bareArgument
            [{ lex := lex, label := lab, startTok := st0, endTok := en0,
               wnIdx := idx, isCompound := true }]
          else []) ++
            classifyFrom tokens word_norm word_raw wti mor sa fuel (idx + 2) (midx + 2)
        | none =>
          classifySingle tokens word_norm word_raw wti mor sa idx midx ++
            classifyFrom tokens word_norm word_raw wti mor sa fuel (idx + 1) (midx + 1)
      else
        classifySingle tokens word_norm word_raw wti mor sa idx midx ++
          classifyFrom tokens word_norm word_raw wti mor sa fuel (idx + 1) (midx + 1)
    else []

/-- The word-extraction pass of `compute`: keep tokens that fully match
`WORD_RE` and are not noise, recording `(normalized, raw, original index)`. -/
def wordTriples (tokens : List String) : List (String × String × ℕ) :=
  tokens.enum.filterMap (fun p =>
    if wordFullmatch p.2 && !isNoise (strLower p.2) then
      some (norm_surface p.2, p.2, p.1)
    else none)

/-- The token list of an utterance. -/
def utterTokens (utter : String) : List String := tokenize utter

/-- `word_norm` of an utterance. -/
def utterWordNorm (utter : String) : List String :=
  (wordTriples (utterTokens utter)).map (fun w => w.1)

/-- `word_raw` of an utterance. -/
def utterWordRaw (utter : String) : List String :=
  (wordTriples (utterTokens utter)).map (fun w => w.2.1)

/-- `word_token_idx` of an utterance. -/
def utterWTI (utter : String) : List ℕ :=
  (wordTriples (utterTokens utter)).map (fun w => w.2.2)

/-- The utterance-standalone flag: after removing discourse particles and
noise from the collapsed lexemes, the remainder is non-empty and every
remaining lexeme is a known kinship term. -/
def utterStandalone (utter : String) : Bool :=
  let filtered := (collapse_multiword (utterWordNorm utter)).filter
    (fun w => !decide (w ∈ DISCOURSE) && !isNoise w)
  !filtered.isEmpty && filtered.all (fun w => decide (w ∈ KINSHIP))

/-- Classify one utterance (the text after the speaker colon) against an
optional morphological tier, producing its list of kinship occurrences. -/
def processUtterance (utter : String) (mor : List (String × String)) : List Occ :=
  if utterWordNorm utter = [] then []
  else
    classifyFrom (utterTokens utter) (utterWordNorm utter) (utterWordRaw utter)
      (utterWTI utter) mor (utterStandalone utter)
      (utterWordNorm utter).length 0 0

/-- Characters after the first colon, `line.split(':', 1)[1]`. -/
def splitColonTail : List Char → Option (List Char)
  | [] => none
  | c :: cs => if c = ':' then some cs else splitColonTail cs

/-- Process one transcript line: only `*`-lines with a colon yield
occurrences, as in the corpus walk of `compute`. -/
def classifyLine (line : String) (mor : List (String × String)) : List Occ :=
  if line.data.head? = some '*' then
    match splitColonTail line.data with
    | some u => processUtterance (String.mk u) mor
    | none => []
  else []

/-- All occurrences of a corpus, given as a list of transcript lines each with
its (possibly empty) morphological tier. -/
def corpusOccs (corpus : List (String × List (String × String))) : List Occ :=
  (corpus.map (fun p => classifyLine p.1 p.2)).flatten

/-- `voc_counts[term]`. -/
def vocCount (occs : List Occ) (term : String) : ℕ :=
  (occs.filter (fun o => decide (o.lex = term) &&
    decide (o.label = Label.vocative))).length

/-- `arg_counts[term]`: occurrences of the term that are not vocative. -/
def argCount (occs : List Occ) (term : String) : ℕ :=
  (occs.filter (fun o => decide (o.lex = term) &&
    !decide (o.label = Label.vocative))).length

/-- `arg_bare_counts[term]`. -/
def bareCount (occs : List Occ) (term : String) : ℕ :=
  (occs.filter (fun o => decide (o.lex = term) &&
    decide (o.label = Label.bareArgument))).length

/-- `arg_det_counts[term]`. -/
def detCount (occs : List Occ) (term : String) : ℕ :=
  (occs.filter (fun o => decide (o.lex = term) &&
    decide (o.label = Label.determinedArgument))).length

/-- All classified occurrences of the term. -/
def totalCount (occs : List Occ) (term : String) : ℕ :=
  (occs.filter (fun o => decide (o.lex = term))).length

/-- `TARGETS` of `check_aunt_mor.py`. -/
def AUNT_TARGETS : List String := ["aunt", "auntie", "aunty"]

/-- `s.startswith(pre)`. -/
def startsWithStr (s : String) (pre : String) : Prop := pre.data <+: s.data

instance (s pre : String) : Decidable (startsWithStr s pre) :=
  inferInstanceAs (Decidable (pre.data <+: s.data))

/-- The windowed morphological-entry search of `analyse_file_with_mor`
(`check_aunt_mor.py`): scan positions `max(0, i-2) .. min(len, i+3) - 1` for
the first entry whose lemma is a target or a prefix of the surface form. -/
def findInWindow (mor : List (String × String)) (morIdx : ℕ) (normed : String) :
    Option ℕ :=
  let lo := morIdx - 2
  let hi := min mor.length (morIdx + 3)
  (List.range' lo (hi - lo)).find? (fun mi =>
    decide ((mor.getD mi ("", "")).2 ∈ AUNT_TARGETS) ||
      decide (startsWithStr normed (mor.getD mi ("", "")).2))

/-- `found_prop` of `analyse_file_with_mor`: the windowed search finds the
kinship entry and its successor is tagged `n:prop`. -/
def windowProp (mor : List (String × String)) (morIdx : ℕ) (normed : String) :
    Bool :=
  match findInWindow mor morIdx normed with
  | some mi =>
    if mi + 1 < mor.length then
      decide ((mor.getD (mi + 1) ("", "")).1 = "n:prop")
    else false
  | none => false

/-- `enumerate(values)` repackaged as `(v, i)` pairs, as built inside `ranks`
of `plot_vocative_bare_correlation.py`; data values are modelled as `ℚ`. -/
def epairs : ℕ → List ℚ → List (ℚ × ℕ)
  | _, [] => []
  | i, v :: vs => (v, i) :: epairs (i + 1) vs

/-- Lexicographic order on `(value, index)` pairs, the order `sorted` uses. -/
def pairLeB (a b : ℚ × ℕ) : Bool :=
  decide (a.1 < b.1) || (decide (a.1 = b.1) && decide (a.2 ≤ b.2))

/-- Ordered insertion for `pairLeB`. -/
def insertPair (p : ℚ × ℕ) : List (ℚ × ℕ) → List (ℚ × ℕ)
  | [] => [p]
  | q :: rest => if pairLeB p q then p :: q :: rest else q :: insertPair p rest

/-- `sorted(...)` on the `(value, index)` pairs.  All pairs are distinct in
their index component, so the lexicographically sorted result is unique and
insertion sort computes exactly what Python's stable sort does. -/
def sortPairs (l : List (ℚ × ℕ)) : List (ℚ × ℕ) := l.foldr insertPair []

/-- The tie-grouping while-loop of `ranks`: positions `i ≤ k < j` holding the
same value all receive the average rank `(i + j - 1)/2 + 1`.  Emits the
`(original index, rank)` assignments in the order the loop writes them
(fuel-bounded; each step consumes at least one pair). -/
def rankAssign : ℕ → List (ℚ × ℕ) → ℕ → List (ℕ × ℚ)
  | 0, _, _ => []
  | _, [], _ => []
  | fuel + 1, (v, p) :: rest, i =>
    let run := rest.takeWhile (fun q => decide (q.1 = v))
    let rest2 := rest.dropWhile (fun q => decide (q.1 = v))
    let j := i + 1 + run.length
    let avg : ℚ := ((i : ℚ) + (j : ℚ) - 1) / 2 + 1
    ((v, p) :: run).map (fun q => (q.2, avg)) ++ rankAssign fuel rest2 j

/-- `ranks(values)`: average midranks, written into a zero-initialized list at
the original positions. -/
def ranks (values : List ℚ) : List ℚ :=
  (rankAssign (values.length + 1) (sortPairs (epairs 0 values)) 0).foldl
    (fun acc pr => acc.set pr.1 pr.2) (List.replicate values.length 0)

open scoped Classical in
/-- `pearson(x, y)`: `None` on an empty list or a zero denominator, else the
product-moment correlation.  `math.sqrt` forces the result into `ℝ`. -/
noncomputable def pearson (x y : List ℚ) : Option ℝ :=
  if x.length = 0 then none
  else
    let n : ℝ := (x.length : ℝ)
    let mx : ℝ := ((x.map (fun v : ℚ => (v : ℝ))).sum) / n
    let my : ℝ := ((y.map (fun v : ℚ => (v : ℝ))).sum) / n
    let num : ℝ :=
      ((x.zip y).map (fun p : ℚ × ℚ => ((p.1 : ℝ) - mx) * ((p.2 : ℝ) - my))).sum
    let dx : ℝ := Real.sqrt ((x.map (fun v : ℚ => ((v : ℝ) - mx) ^ 2)).sum)
    let dy : ℝ := Real.sqrt ((y.map (fun v : ℚ => ((v : ℝ) - my) ^ 2)).sum)
    if dx = 0 ∨ dy = 0 then none else some (num / (dx * dy))

/-- `spearman(x, y)`: `None` on empty input, else Pearson on midranks. -/
noncomputable def spearman (x y : List ℚ) : Option ℝ :=
  if x = [] then none else pearson (ranks x) (ranks y)

/-- A per-million rate from `main` of `compute_childes_kinship_vocative.py`:
`(count / surface_total * 1_000_000) if surface_total else 0`. -/
def perMillion (count total : ℕ) : ℚ :=
  if total = 0 then 0 else (count : ℚ) / (total : ℚ) * 1000000

/-- The vocative percentage of `write_sensitivity`:
`(voc / total * 100.0) if total else 0.0` with `total = voc + arg`. -/
def vocativePercent (voc arg : ℕ) : ℚ :=
  if voc + arg = 0 then 0 else (voc : ℚ) / ((voc : ℚ) + (arg : ℚ)) * 100

/-- The corrected true-vocative rate of `simulate_corrections`:
`true_voc / total if total else 0.0` with
`true_voc = pred_voc * ppv + pred_arg * fov` and `total = pred_voc + pred_arg`. -/
def trueVocRate (predVoc predArg : ℕ) (ppv fov : ℚ) : ℚ :=
  if predVoc + predArg = 0 then 0
  else ((predVoc : ℚ) * ppv + (predArg : ℚ) * fov) / ((predVoc : ℚ) + (predArg : ℚ))

/-- `s` is the collapsed lexeme of some compound. -/
def isMWValue (s : String) : Bool := MULTIWORD.any (fun e => decide (e.2 = s))

/-- No adjacent pair of the list is a registered compound. -/
def noMWPairs : List String → Bool
  | x :: y :: rest => (mwLookup x y).isNone && noMWPairs (y :: rest)
  | _ => true

/-- The ranks `[1, 2, ..., n]` of a strictly increasing dataset. -/
def rks (n : ℕ) : List ℚ :=
  (List.range n).map (fun k : ℕ => (k : ℚ) + 1)

/-- Rank assignments when every tie-group is a singleton: position `ps.get k`
receives rank `i + k + 1`. -/
def idxAssign : List ℕ → ℕ → List (ℕ × ℚ)
  | [], _ => []
  | p :: ps, i => (p, (i : ℚ) + 1) :: idxAssign ps (i + 1)

/-! ## Helper lemmas -/

/-- Per-occurrence counting step: the four counters of `compute` split each
occurrence by its label, so the argument counter is the sum of the bare and
determined counters and the vocative and argument counters sum to the total. -/
theorem counts_partition (occs : List Occ) (term : String) :
    bareCount occs term + detCount occs term = argCount occs term ∧
    vocCount occs term + argCount occs term = totalCount occs term := by
  induction occs with
  | nil => simp [bareCount, detCount, argCount, vocCount, totalCount]
  | cons o rest ih =>
    simp only [bareCount, detCount, argCount, vocCount, totalCount,
      List.filter_cons] at ih ⊢
    by_cases hl : o.lex = term
    · cases h : o.label <;> simp [hl, h] <;> omega
    · simpa [hl] using ih

/-! ## C9 -/

/-- C9: every rate computation defines a zero denominator as a zero result —
per-million rates with a zero surface-token total, the vocative percentage
with zero total occurrences, and the corrected true-vocative rate with a zero
observed total all evaluate to 0 instead of failing. -/
theorem c9_zero_denominator_rates :
    (∀ c : ℕ, perMillion c 0 = 0) ∧ vocativePercent 0 0 = 0 ∧
      (∀ ppv fov : ℚ, trueVocRate 0 0 ppv fov = 0) :=
  ⟨fun _ => rfl, rfl, fun _ _ => rfl⟩

/-! ## C2 -/

/-- C2: every emitted occurrence carries exactly one of the three labels, and
for every corpus and term the counts partition: bare + determined = argument
and vocative + argument = total. -/
theorem c2_labels_partition :
    ∀ (corpus : List (String × List (String × String))) (term : String),
      (bareCount (corpusOccs corpus) term + detCount (corpusOccs corpus) term =
        argCount (corpusOccs corpus) term) ∧
      (vocCount (corpusOccs corpus) term + argCount (corpusOccs corpus) term =
        totalCount (corpusOccs corpus) term) ∧
      (∀ o ∈ corpusOccs corpus,
        o.label = Label.vocative ∨ o.label = Label.bareArgument ∨
          o.label = Label.determinedArgument) := by
  intro corpus term
  refine ⟨(counts_partition _ _).1, (counts_partition _ _).2, ?_⟩
  intro o _
  cases o.label <;> simp

/-- Witness for C2 at the one-line corpus `*CHI: hi Mommy !`. -/
theorem c2_labels_partition_witness :
    (vocCount (corpusOccs [("*CHI: hi Mommy !", [])]) "mommy" +
        argCount (corpusOccs [("*CHI: hi Mommy !", [])]) "mommy" =
      totalCount (corpusOccs [("*CHI: hi Mommy !", [])]) "mommy") ∧
    (({ lex := "mommy", label := Label.vocative, startTok := 1, endTok := 1,
        wnIdx := 1, isCompound := false } : Occ) ∈
          corpusOccs [("*CHI: hi Mommy !", [])] ∧
      (Label.vocative = Label.vocative ∨ Label.vocative = Label.bareArgument ∨
        Label.vocative = Label.determinedArgument)) :=
  ⟨(c2_labels_partition [("*CHI: hi Mommy !", [])] "mommy").2.1,
    by decide,
    (c2_labels_partition [("*CHI: hi Mommy !", [])] "mommy").2.2
      { lex := "mommy", label := Label.vocative, startTok := 1, endTok := 1,
        wnIdx := 1, isCompound := false } (by decide)⟩

/-! ## C7 -/

/-- Every registered kinship lexeme has at least two characters. -/
theorem kinship_len_two : ∀ w ∈ KINSHIP, 2 ≤ w.data.length := by decide

/-- Every compound component has at least two characters. -/
theorem comps_len_two : ∀ w ∈ MULTI_COMPONENTS, 2 ≤ w.data.length := by decide

/-- Every registered kinship lexeme ending in `y` has at least three
characters. -/
theorem kinship_y_len_three : ∀ w ∈ KINSHIP,
    endsWithStr w ['y'] → 3 ≤ w.data.length := by decide

/-- `t[:-n]` has `len t - n` characters. -/
theorem dropRightStr_len (s : String) (n : ℕ) :
    (dropRightStr s n).data.length = s.data.length - n := by
  simp [dropRightStr]

/-- A string cannot end both in `s` and in `s` + apostrophe. -/
theorem not_endsWith_s_sApos {t : String} (h1 : endsWithStr t ['s'])
    (h2 : endsWithStr t sApos) : False := by
  rcases List.suffix_or_suffix_of_suffix h1 h2 with h | h
  · exact absurd h (by decide)
  · exact absurd h (by decide)

/-- Ending in apostrophe + `s` (either apostrophe) entails ending in `s`. -/
theorem endsWith_s_of_aposS {t : String}
    (h : endsWithStr t aposS ∨ endsWithStr t rsquoS) : endsWithStr t ['s'] := by
  rcases h with h | h
  · exact List.IsSuffix.trans (by decide) h
  · exact List.IsSuffix.trans (by decide) h

/-- C7: surface normalization strips a plural suffix only down to a known
lexeme of length at least 3, strips a possessive suffix only down to a known
lexeme or compound component, leaves every length-3 form ending in `s`
untouched (so a 2-character candidate base such as `ma` is never truncated),
and returns any token with no applicable rule lowercased but unchanged; in
particular `mas` stays `mas`, `moms` becomes `mom`, and possessive `ma`+`'s`
becomes `ma`. -/
theorem c7_norm_surface :
    (∀ tok : String, possStrip (strLower tok) ≠ strLower tok →
      possStrip (strLower tok) ∈ KINSHIP ∨
        possStrip (strLower tok) ∈ MULTI_COMPONENTS) ∧
    (∀ tok : String, norm_surface tok ≠ possStrip (strLower tok) →
      norm_surface tok ∈ KINSHIP ∧ 3 ≤ (norm_surface tok).data.length) ∧
    (∀ tok : String, (strLower tok).data.length = 3 →
      endsWithStr (strLower tok) ['s'] → norm_surface tok = strLower tok) ∧
    (∀ tok : String, ¬ endsWithStr (strLower tok) ['s'] →
      ¬ endsWithStr (strLower tok) sApos → norm_surface tok = strLower tok) ∧
    norm_surface "mas" = "mas" ∧ norm_surface "moms" = "mom" ∧
    norm_surface (String.mk ['m', 'a', apoChar, 's']) = "ma" := by
  have hposs : ∀ t : String, possStrip t = t ∨
      (possStrip t ∈ KINSHIP ∨ possStrip t ∈ MULTI_COMPONENTS) ∧
        ((possStrip t = dropRightStr t 2 ∧
            (endsWithStr t aposS ∨ endsWithStr t rsquoS)) ∨
          (possStrip t = dropRightStr t 1 ∧ endsWithStr t sApos)) := by
    intro t
    unfold possStrip
    split_ifs with h1 h2 h3 h4
    · exact Or.inr ⟨h2, Or.inl ⟨rfl, h1⟩⟩
    · exact Or.inl rfl
    · exact Or.inr ⟨h4, Or.inr ⟨rfl, h3⟩⟩
    · exact Or.inl rfl
    · exact Or.inl rfl
  have hplural : ∀ t : String,
      (norm_surface t = possStrip (strLower t)) ∨
      (norm_surface t ∈ KINSHIP ∧ 3 ≤ (norm_surface t).data.length) := by
    intro t
    simp only [norm_surface]
    split_ifs with h1 h2 h3
    · refine Or.inr ⟨h1.2, kinship_y_len_three _ h1.2 ?_⟩
      have hy : ("y" : String).data <:+
          ((dropRightStr (possStrip (strLower t)) 3).data ++ ("y" : String).data) :=
        List.suffix_append _ _
      rw [← String.data_append] at hy
      exact hy
    · exact Or.inr ⟨h2.2.1, h2.2.2⟩
    · exact Or.inr ⟨h3.2.1, h3.2.2⟩
    · exact Or.inl rfl
  refine ⟨?_, ?_, ?_, ?_, by decide, by decide, by decide⟩
  · intro tok hne
    rcases hposs (strLower tok) with h | ⟨hm, _⟩
    · exact absurd h hne
    · exact hm
  · intro tok hne
    rcases hplural tok with h | h
    · exact absurd h hne
    · exact h
  · intro tok hlen hs
    have hp : possStrip (strLower tok) = strLower tok := by
      rcases hposs (strLower tok) with h | ⟨hm, hcase⟩
      · exact h
      · exfalso
        rcases hcase with ⟨heq, _⟩ | ⟨heq, hsap⟩
        · have : 2 ≤ (dropRightStr (strLower tok) 2).data.length := by
            rcases hm with hm | hm
            · exact kinship_len_two _ (heq ▸ hm)
            · exact comps_len_two _ (heq ▸ hm)
          rw [dropRightStr_len, hlen] at this
          omega
        · exact not_endsWith_s_sApos hs hsap
    simp only [norm_surface]
    rw [hp]
    split_ifs with h1 h2 h3
    · exfalso
      have h2le : 2 ≤ (dropRightStr (strLower tok) 3 ++ "y").data.length :=
        kinship_len_two _ h1.2
      rw [String.data_append, List.length_append, dropRightStr_len, hlen]
        at h2le
      simp at h2le
    · exfalso
      have h2le : 2 ≤ (dropRightStr (strLower tok) 2).data.length :=
        kinship_len_two _ h2.2.1
      rw [dropRightStr_len, hlen] at h2le
      omega
    · exfalso
      have := h3.2.2
      rw [dropRightStr_len, hlen] at this
      omega
    · rfl
  · intro tok hs hsap
    have hp : possStrip (strLower tok) = strLower tok := by
      unfold possStrip
      split_ifs with h1 h2
      · exact absurd (endsWith_s_of_aposS h1) hs
      · exact absurd (endsWith_s_of_aposS h1) hs
      · rfl
    simp only [norm_surface]
    rw [hp]
    split_ifs with h1 h2 h3
    · exact absurd (List.IsSuffix.trans (by decide) h1.1) hs
    · exact absurd (List.IsSuffix.trans (by decide) h2.1) hs
    · exact absurd h3.1 hs
    · rfl

/-- Witness for C7: the plural form `moms` strips (known base of length 3)
while the length-3 form `mas` keeps its final `s`. -/
theorem c7_norm_surface_witness :
    ((strLower "mas").data.length = 3 ∧ endsWithStr (strLower "mas") ['s'] ∧
      norm_surface "mas" = strLower "mas") ∧
    (norm_surface "moms" ≠ possStrip (strLower "moms") ∧
      norm_surface "moms" ∈ KINSHIP ∧ 3 ≤ (norm_surface "moms").data.length) :=
  ⟨⟨by decide, by decide, c7_norm_surface.2.2.1 "mas" (by decide) (by decide)⟩,
    by decide, c7_norm_surface.2.1 "moms" (by decide)⟩

/-! ## C6 -/

/-- No compound lexeme is the first component of a compound key. -/
theorem mw_value_not_first :
    ∀ e ∈ MULTIWORD, ∀ f ∈ MULTIWORD, e.2 ≠ f.1.1 := by decide

/-- No compound lexeme is the second component of a compound key. -/
theorem mw_value_not_second :
    ∀ e ∈ MULTIWORD, ∀ f ∈ MULTIWORD, e.2 ≠ f.1.2 := by decide

/-- A successful lookup comes from a registered compound entry. -/
theorem mwLookup_mem {a b lex : String} (h : mwLookup a b = some lex) :
    ((a, b), lex) ∈ MULTIWORD := by
  unfold mwLookup at h
  rw [Option.map_eq_some'] at h
  obtain ⟨e, he, hlex⟩ := h
  have hm := List.mem_of_find?_eq_some he
  have hp := List.find?_some he
  simp only [Bool.and_eq_true, decide_eq_true_eq] at hp
  obtain ⟨ha, hb⟩ := hp
  rw [← ha, ← hb, ← hlex]
  simpa using hm

/-- The lexeme of a successful lookup is a compound value. -/
theorem mwLookup_isMWValue {a b lex : String} (h : mwLookup a b = some lex) :
    isMWValue lex = true := by
  rw [isMWValue, List.any_eq_true]
  exact ⟨_, mwLookup_mem h, by simp⟩

/-- A compound value never begins a registered pair. -/
theorem mwLookup_value_fst {a : String} (h : isMWValue a = true) (b : String) :
    mwLookup a b = none := by
  rw [isMWValue, List.any_eq_true] at h
  obtain ⟨e, he, hv⟩ := h
  simp only [decide_eq_true_eq] at hv
  unfold mwLookup
  rw [Option.map_eq_none', List.find?_eq_none]
  intro f hf
  simp only [Bool.and_eq_true, decide_eq_true_eq, not_and]
  intro ha _
  exact mw_value_not_first e he f hf (hv.trans ha.symm)

/-- A compound value never ends a registered pair. -/
theorem mwLookup_value_snd {b : String} (h : isMWValue b = true) (a : String) :
    mwLookup a b = none := by
  rw [isMWValue, List.any_eq_true] at h
  obtain ⟨e, he, hv⟩ := h
  simp only [decide_eq_true_eq] at hv
  unfold mwLookup
  rw [Option.map_eq_none', List.find?_eq_none]
  intro f hf
  simp only [Bool.and_eq_true, decide_eq_true_eq, not_and]
  intro _ hb
  exact mw_value_not_second e he f hf (hv.trans hb.symm)

/-- The collapse of a nonempty list is nonempty and starts either with the
original head or with a compound value. -/
theorem collapse_head (y : String) (rest : List String) :
    ∃ z t, collapse_multiword (y :: rest) = z :: t ∧
      (z = y ∨ isMWValue z = true) := by
  cases rest with
  | nil => exact ⟨y, [], rfl, Or.inl rfl⟩
  | cons r rest' =>
    cases h : mwLookup y r with
    | some lex =>
      refine ⟨lex, collapse_multiword rest', ?_, Or.inr (mwLookup_isMWValue h)⟩
      simp [collapse_multiword, h]
    | none =>
      refine ⟨y, collapse_multiword (r :: rest'), ?_, Or.inl rfl⟩
      simp [collapse_multiword, h]

/-- The output of the collapse contains no registered adjacent pair. -/
theorem collapse_noMWPairs (l : List String) :
    noMWPairs (collapse_multiword l) = true := by
  have H : ∀ n (l : List String), l.length ≤ n →
      noMWPairs (collapse_multiword l) = true := by
    intro n
    induction n with
    | zero =>
      intro l hl
      rw [Nat.le_zero, List.length_eq_zero] at hl
      subst hl
      rfl
    | succ n ih =>
      intro l hl
      match l with
      | [] => rfl
      | [x] => rfl
      | x :: y :: rest =>
        cases h : mwLookup x y with
        | some lex =>
          have hrec := ih rest (by simp at hl; omega)
          simp only [collapse_multiword, h]
          cases hc : collapse_multiword rest with
          | nil => rfl
          | cons z t =>
            have hz : mwLookup lex z = none :=
              mwLookup_value_fst (mwLookup_isMWValue h) z
            rw [hc] at hrec
            simp [noMWPairs, hz, hrec]
        | none =>
          have hrec := ih (y :: rest) (by simp at hl ⊢; omega)
          simp only [collapse_multiword, h]
          obtain ⟨z, t, hc, hz⟩ := collapse_head y rest
          have hxz : mwLookup x z = none := by
            rcases hz with hz | hz
            · rw [hz]; exact h
            · exact mwLookup_value_snd hz x
          rw [hc] at hrec ⊢
          simp [noMWPairs, hxz, hrec]
  exact H l.length l le_rfl

/-- A list with no registered adjacent pair collapses to itself. -/
theorem collapse_of_noMWPairs :
    ∀ l : List String, noMWPairs l = true → collapse_multiword l = l := by
  intro l
  induction l with
  | nil => intro _; rfl
  | cons x tail ih =>
    intro hl
    cases tail with
    | nil => rfl
    | cons y rest =>
      simp only [noMWPairs, Bool.and_eq_true, Option.isNone_iff_eq_none] at hl
      simp only [collapse_multiword, hl.1]
      rw [ih hl.2]

/-- Every item of `collapse_with_spans` covers either one position holding its
own lexeme or two adjacent positions forming a registered compound; spans are
reported relative to the original list, offset by the starting index. -/
theorem spans_items :
    ∀ (l : List String) (i : ℕ) (it : String × ℕ × ℕ),
      it ∈ collapse_with_spans l i →
      i ≤ it.2.1 ∧
        ((it.2.2 = it.2.1 ∧ it.1 = l.getD (it.2.1 - i) "") ∨
          (it.2.2 = it.2.1 + 1 ∧
            mwLookup (l.getD (it.2.1 - i) "") (l.getD (it.2.2 - i) "") =
              some it.1)) := by
  have H : ∀ n (l : List String), l.length ≤ n → ∀ (i : ℕ)
      (it : String × ℕ × ℕ), it ∈ collapse_with_spans l i →
      i ≤ it.2.1 ∧
        ((it.2.2 = it.2.1 ∧ it.1 = l.getD (it.2.1 - i) "") ∨
          (it.2.2 = it.2.1 + 1 ∧
            mwLookup (l.getD (it.2.1 - i) "") (l.getD (it.2.2 - i) "") =
              some it.1)) := by
    intro n
    induction n with
    | zero =>
      intro l hl i it hit
      rw [Nat.le_zero, List.length_eq_zero] at hl
      subst hl
      simp [collapse_with_spans] at hit
    | succ n ih =>
      intro l hl i it hit
      match l with
      | [] => simp [collapse_with_spans] at hit
      | [x] =>
        simp only [collapse_with_spans, List.mem_singleton] at hit
        subst hit
        simp
      | x :: y :: rest =>
        cases h : mwLookup x y with
        | some lex =>
          simp only [collapse_with_spans, h, List.mem_cons] at hit
          rcases hit with hit | hit
          · subst hit
            refine ⟨le_rfl, Or.inr ⟨rfl, ?_⟩⟩
            simpa using h
          · have := ih rest (by simp at hl; omega) (i + 2) it hit
            refine ⟨by omega, ?_⟩
            have hoff1 : it.2.1 - i = (it.2.1 - (i + 2)) + 2 := by omega
            rcases this.2 with ⟨he, hv⟩ | ⟨he, hv⟩
            · refine Or.inl ⟨he, ?_⟩
              rw [hoff1]
              simpa using hv
            · refine Or.inr ⟨he, ?_⟩
              have hoff2 : it.2.2 - i = (it.2.2 - (i + 2)) + 2 := by
                have := this.1
                omega
              rw [hoff1, hoff2]
              simpa using hv
        | none =>
          simp only [collapse_with_spans, h, List.mem_cons] at hit
          rcases hit with hit | hit
          · subst hit
            simp
          · have := ih (y :: rest) (by simp at hl ⊢; omega) (i + 1) it hit
            refine ⟨by omega, ?_⟩
            have hoff1 : it.2.1 - i = (it.2.1 - (i + 1)) + 1 := by omega
            rcases this.2 with ⟨he, hv⟩ | ⟨he, hv⟩
            · refine Or.inl ⟨he, ?_⟩
              rw [hoff1]
              simpa using hv
            · refine Or.inr ⟨he, ?_⟩
              have hoff2 : it.2.2 - i = (it.2.2 - (i + 1)) + 1 := by
                have := this.1
                omega
              rw [hoff1, hoff2]
              simpa using hv
  exact fun l i it hit => H l.length l le_rfl i it hit

/-- The lexemes of the span items are exactly the collapsed sequence. -/
theorem spans_map_fst :
    ∀ (l : List String) (i : ℕ),
      (collapse_with_spans l i).map (fun it => it.1) = collapse_multiword l := by
  have H : ∀ n (l : List String), l.length ≤ n → ∀ i : ℕ,
      (collapse_with_spans l i).map (fun it => it.1) = collapse_multiword l := by
    intro n
    induction n with
    | zero =>
      intro l hl i
      rw [Nat.le_zero, List.length_eq_zero] at hl
      subst hl
      rfl
    | succ n ih =>
      intro l hl i
      match l with
      | [] => rfl
      | [x] => rfl
      | x :: y :: rest =>
        cases h : mwLookup x y with
        | some lex =>
          simp only [collapse_with_spans, collapse_multiword, h, List.map_cons]
          rw [ih rest (by simp at hl; omega)]
        | none =>
          simp only [collapse_with_spans, collapse_multiword, h, List.map_cons]
          rw [ih (y :: rest) (by simp at hl ⊢; omega)]
  exact fun l i => H l.length l le_rfl i

/-- The index spans of the items tile `range' i (length l)` in order: every
source position is consumed exactly once. -/
theorem spans_flatten :
    ∀ (l : List String) (i : ℕ),
      ((collapse_with_spans l i).map
        (fun it => List.range' it.2.1 (it.2.2 + 1 - it.2.1))).flatten =
        List.range' i l.length := by
  have H : ∀ n (l : List String), l.length ≤ n → ∀ i : ℕ,
      ((collapse_with_spans l i).map
        (fun it => List.range' it.2.1 (it.2.2 + 1 - it.2.1))).flatten =
        List.range' i l.length := by
    intro n
    induction n with
    | zero =>
      intro l hl i
      rw [Nat.le_zero, List.length_eq_zero] at hl
      subst hl
      rfl
    | succ n ih =>
      intro n' hl i
      match n' with
      | [] => rfl
      | [x] => simp [collapse_with_spans]
      | x :: y :: rest =>
        cases h : mwLookup x y with
        | some lex =>
          simp only [collapse_with_spans, h, List.map_cons, List.flatten_cons]
          rw [ih rest (by simp at hl; omega) (i + 2)]
          have h2 : i + 1 + 1 - i = 2 := by omega
          rw [h2]
          have happ : List.range' i 2 ++ List.range' (i + 2) rest.length =
              List.range' i (rest.length + 2) :=
            List.range'_append_1 i 2 rest.length
          rw [happ]
          congr 1
        | none =>
          simp only [collapse_with_spans, h, List.map_cons, List.flatten_cons]
          rw [ih (y :: rest) (by simp at hl ⊢; omega) (i + 1)]
          have h1 : i + 1 - i = 1 := by omega
          rw [h1]
          have happ : List.range' i 1 ++ List.range' (i + 1) (y :: rest).length =
              List.range' i ((y :: rest).length + 1) :=
            List.range'_append_1 i 1 (y :: rest).length
          rw [happ]
          congr 1
  exact fun l i => H l.length l le_rfl i

/-- C6: the multiword collapse is idempotent, agrees with the span-reporting
variant, and the spans tile the source positions: each compound consumes
exactly two adjacent positions, no position is consumed twice, and positions
outside any compound pass through unchanged in order. -/
theorem c6_collapse_idempotent_partition :
    ∀ wn : List String,
      collapse_multiword (collapse_multiword wn) = collapse_multiword wn ∧
      (collapse_with_spans wn 0).map (fun it => it.1) = collapse_multiword wn ∧
      ((collapse_with_spans wn 0).map
        (fun it => List.range' it.2.1 (it.2.2 + 1 - it.2.1))).flatten =
        List.range wn.length ∧
      (∀ it ∈ collapse_with_spans wn 0,
        (it.2.2 = it.2.1 ∧ it.1 = wn.getD it.2.1 "") ∨
          (it.2.2 = it.2.1 + 1 ∧
            mwLookup (wn.getD it.2.1 "") (wn.getD it.2.2 "") = some it.1)) := by
  intro wn
  refine ⟨collapse_of_noMWPairs _ (collapse_noMWPairs wn), spans_map_fst wn 0,
    ?_, ?_⟩
  · rw [spans_flatten wn 0, List.range_eq_range']
  · intro it hit
    have := (spans_items wn 0 it hit).2
    simpa using this

/-- Witness for C6 at `[grand, ma, dad]`: the compound `grandma` spans
positions 0–1 and `dad` passes through at position 2. -/
theorem c6_collapse_idempotent_partition_witness :
    (collapse_multiword (collapse_multiword ["grand", "ma", "dad"]) =
      collapse_multiword ["grand", "ma", "dad"]) ∧
    (("grandma", 0, 1) ∈ collapse_with_spans ["grand", "ma", "dad"] 0 ∧
      ((1 : ℕ) = 0 ∧ "grandma" = ["grand", "ma", "dad"].getD 0 "" ∨
        ((1 : ℕ) = 0 + 1 ∧
          mwLookup (["grand", "ma", "dad"].getD 0 "")
            (["grand", "ma", "dad"].getD 1 "") = some "grandma"))) :=
  ⟨(c6_collapse_idempotent_partition ["grand", "ma", "dad"]).1,
    by decide,
    (c6_collapse_idempotent_partition ["grand", "ma", "dad"]).2.2.2
      ("grandma", 0, 1) (by decide)⟩

/-! ## Classifier structure lemmas (C1, C3, C4, C5, C10) -/

/-- Case analysis of the label expression shared by both classifier branches:
vocative exactly on the vocative test, determined exactly on the determiner
test or the title+name test. -/
theorem occ_label_spec (isv hd ht : Bool) (lab : Label)
    (hlab : lab = if isv then Label.vocative
      else if hd then Label.determinedArgument
      else if ht then Label.determinedArgument
      else Label.bareArgument) :
    (lab = Label.vocative ↔ isv = true) ∧
    (lab ≠ Label.vocative →
      (lab = Label.determinedArgument ↔ (hd = true ∨ ht = true))) := by
  subst hlab
  cases isv <;> cases hd <;> cases ht <;> simp

/-- The compound-branch label expression: vocative exactly on the vocative
test, determined exactly on the determiner test (no title+name test). -/
theorem occ_label_spec_compound (isv hd : Bool) (lab : Label)
    (hlab : lab = if isv then Label.vocative
      else if hd then Label.determinedArgument
      else Label.bareArgument) :
    (lab = Label.vocative ↔ isv = true) ∧
    (lab ≠ Label.vocative →
      (lab = Label.determinedArgument ↔ hd = true)) := by
  subst hlab
  cases isv <;> cases hd <;> simp

/-- What one emitted single-token occurrence satisfies. -/
theorem classifySingle_spec (tokens wn wr : List String) (wti : List ℕ)
    (mor : List (String × String)) (sa : Bool) (idx midx : ℕ)
    (hmid : midx = idx) (o : Occ)
    (ho : o ∈ classifySingle tokens wn wr wti mor sa idx midx) :
    o.lex ∈ KINSHIP ∧
    (o.label = Label.vocative ↔
      (sa = true ∨ is_comma_adjacent tokens o.startTok o.endTok = true)) ∧
    (o.label ≠ Label.vocative →
      (o.label = Label.determinedArgument ↔
        (has_determiner wn wr o.wnIdx = true ∨
          (o.isCompound = false ∧ titleTest mor o.lex o.wnIdx = true)))) := by
  rw [hmid] at ho
  simp only [classifySingle] at ho
  by_cases hk : wn.getD idx "" ∈ KINSHIP
  · rw [if_pos hk] at ho
    have ho' := List.mem_singleton.mp ho
    subst ho'
    have hspec := occ_label_spec
      (sa || is_comma_adjacent tokens (wti.getD idx 0) (wti.getD idx 0))
      (has_determiner wn wr idx) (titleTest mor (wn.getD idx "") idx) _ rfl
    refine ⟨hk, ?_, ?_⟩
    · rw [hspec.1]
      simp
    · intro hnv
      rw [hspec.2 hnv]
      simp
  · rw [if_neg hk] at ho
    simp at ho

/-- What every occurrence emitted by the classification loop satisfies, for
any fuel: the lexeme is a kinship term, the label is vocative exactly on the
standalone-or-comma test, and a non-vocative label is determined exactly on
the determiner test or — only for single-token items — the title+name test
at the occurrence's own position (`mor_word_idx` stays equal to `idx`). -/
theorem classifyFrom_spec :
    ∀ (fuel : ℕ) (tokens wn wr : List String) (wti : List ℕ)
      (mor : List (String × String)) (sa : Bool) (idx midx : ℕ),
      midx = idx →
      ∀ o ∈ classifyFrom tokens wn wr wti mor sa fuel idx midx,
        o.lex ∈ KINSHIP ∧
        (o.label = Label.vocative ↔
          (sa = true ∨ is_comma_adjacent tokens o.startTok o.endTok = true)) ∧
        (o.label ≠ Label.vocative →
          (o.label = Label.determinedArgument ↔
            (has_determiner wn wr o.wnIdx = true ∨
              (o.isCompound = false ∧ titleTest mor o.lex o.wnIdx = true)))) := by
  intro fuel
  induction fuel with
  | zero =>
    intro tokens wn wr wti mor sa idx midx _ o ho
    simp [classifyFrom] at ho
  | succ fuel ih =>
    intro tokens wn wr wti mor sa idx midx hmid o ho
    rw [classifyFrom] at ho
    by_cases h1 : idx < wn.length
    swap
    · simp [h1] at ho
    rw [if_pos h1] at ho
    by_cases h2 : idx + 1 < wn.length
    swap
    · rw [if_neg h2] at ho
      rcases List.mem_append.mp ho with hs | hr
      · exact classifySingle_spec tokens wn wr wti mor sa idx midx hmid o hs
      · exact ih tokens wn wr wti mor sa (idx + 1) (midx + 1) (by omega) o hr
    rw [if_pos h2] at ho
    cases hmw : mwLookup (wn.getD idx "") (wn.getD (idx + 1) "") with
    | some lex =>
      rw [hmw] at ho
      rcases List.mem_append.mp ho with hs | hr
      · by_cases hk : lex ∈ KINSHIP
        swap
        · simp [hk] at hs
        simp only [hk, if_true, List.mem_singleton] at hs
        subst hs
        have hspec := occ_label_spec_compound
          (sa || is_comma_adjacent tokens (wti.getD idx 0) (wti.getD (idx + 1) 0))
          (has_determiner wn wr idx) _ rfl
        refine ⟨hk, ?_, ?_⟩
        · rw [hspec.1]
          simp
        · intro hnv
          rw [hspec.2 hnv]
          simp
      · exact ih tokens wn wr wti mor sa (idx + 2) (midx + 2) (by omega) o hr
    | none =>
      rw [hmw] at ho
      rcases List.mem_append.mp ho with hs | hr
      · exact classifySingle_spec tokens wn wr wti mor sa idx midx hmid o hs
      · exact ih tokens wn wr wti mor sa (idx + 1) (midx + 1) (by omega) o hr

/-- `classifyFrom_spec` transported to `processUtterance`. -/
theorem processUtterance_spec (utter : String) (mor : List (String × String))
    (o : Occ) (ho : o ∈ processUtterance utter mor) :
    o.lex ∈ KINSHIP ∧
    (o.label = Label.vocative ↔
      (utterStandalone utter = true ∨
        is_comma_adjacent (utterTokens utter) o.startTok o.endTok = true)) ∧
    (o.label ≠ Label.vocative →
      (o.label = Label.determinedArgument ↔
        (has_determiner (utterWordNorm utter) (utterWordRaw utter) o.wnIdx = true ∨
          (o.isCompound = false ∧ titleTest mor o.lex o.wnIdx = true)))) := by
  unfold processUtterance at ho
  by_cases h : utterWordNorm utter = []
  · simp [h] at ho
  · rw [if_neg h] at ho
    exact classifyFrom_spec _ _ _ _ _ _ _ 0 0 rfl o ho

/-! ## C1 -/

/-- C1: an emitted kinship occurrence is labeled vocative exactly when the
utterance is standalone or the original token immediately before its start or
immediately after its end is a comma; in particular, in `*CHI: hi Mommy !`
the occurrence of `Mommy` is vocative. -/
theorem c1_vocative_iff :
    (∀ (utter : String) (mor : List (String × String)) (o : Occ),
      o ∈ processUtterance utter mor →
      (o.label = Label.vocative ↔
        (utterStandalone utter = true ∨
          is_comma_adjacent (utterTokens utter) o.startTok o.endTok = true))) ∧
    (classifyLine "*CHI: hi Mommy !" []).map (fun o => (o.lex, o.label)) =
      [("mommy", Label.vocative)] := by
  refine ⟨?_, by decide⟩
  intro utter mor o ho
  exact (processUtterance_spec utter mor o ho).2.1

/-- Witness for C1 at the `Mommy` occurrence of `*CHI: hi Mommy !`. -/
theorem c1_vocative_iff_witness :
    ({ lex := "mommy", label := Label.vocative, startTok := 1, endTok := 1,
        wnIdx := 1, isCompound := false } : Occ) ∈
          processUtterance " hi Mommy !" [] ∧
    (Label.vocative = Label.vocative ↔
      (utterStandalone " hi Mommy !" = true ∨
        is_comma_adjacent (utterTokens " hi Mommy !") 1 1 = true)) :=
  ⟨by decide,
    c1_vocative_iff.1 " hi Mommy !" []
      { lex := "mommy", label := Label.vocative, startTok := 1, endTok := 1,
        wnIdx := 1, isCompound := false } (by decide)⟩

/-! ## C3 -/

/-- Counterexample for C3: in `*MOT: I saw auntie Sarah .` with an aligned
morphological tier tagging `Sarah` as `n:prop`, the occurrence of `auntie` is
labeled determined-argument although none of the three stated determiner
conditions holds (`has_determiner` is false) — so "otherwise it is bare" is
false as stated: the title+name override also produces determined. -/
theorem c3_counterexample :
    (processUtterance " I saw auntie Sarah ."
        [("pro", "i"), ("v", "see"), ("n", "auntie"), ("n:prop", "sarah")]).map
      (fun o => (o.lex, o.label)) = [("auntie", Label.determinedArgument)] ∧
    has_determiner (utterWordNorm " I saw auntie Sarah .")
      (utterWordRaw " I saw auntie Sarah .") 2 = false := by
  decide

/-- C3 (amended): a non-vocative item is determined exactly when the
determiner/genitive/coordination test holds **or** (for single-token items)
the title+name override fires; otherwise it is bare.  In particular `mom` in
`*MOT: I saw my mom yesterday .` is determined-argument and in
`*MOT: I saw mom yesterday .` bare-argument. -/
theorem c3_determined_iff :
    (∀ (utter : String) (mor : List (String × String)) (o : Occ),
      o ∈ processUtterance utter mor → o.label ≠ Label.vocative →
      (o.label = Label.determinedArgument ↔
        (has_determiner (utterWordNorm utter) (utterWordRaw utter) o.wnIdx = true ∨
          (o.isCompound = false ∧ titleTest mor o.lex o.wnIdx = true)))) ∧
    (classifyLine "*MOT: I saw my mom yesterday ." []).map
      (fun o => (o.lex, o.label)) = [("mom", Label.determinedArgument)] ∧
    (classifyLine "*MOT: I saw mom yesterday ." []).map
      (fun o => (o.lex, o.label)) = [("mom", Label.bareArgument)] := by
  refine ⟨?_, by decide, by decide⟩
  intro utter mor o ho hnv
  exact (processUtterance_spec utter mor o ho).2.2 hnv

/-- Witness for C3 at the `mom` occurrence of `*MOT: I saw my mom yesterday .`. -/
theorem c3_determined_iff_witness :
    ({ lex := "mom", label := Label.determinedArgument, startTok := 3,
        endTok := 3, wnIdx := 3, isCompound := false } : Occ) ∈
          processUtterance " I saw my mom yesterday ." [] ∧
    (Label.determinedArgument = Label.determinedArgument ↔
      (has_determiner (utterWordNorm " I saw my mom yesterday .")
          (utterWordRaw " I saw my mom yesterday .") 3 = true ∨
        ((false : Bool) = false ∧ titleTest [] "mom" 3 = true))) :=
  ⟨by decide,
    c3_determined_iff.1 " I saw my mom yesterday ." []
      { lex := "mom", label := Label.determinedArgument, startTok := 3,
        endTok := 3, wnIdx := 3, isCompound := false }
      (by decide) (by decide)⟩

/-! ## C4 -/

/-- Counterexample for C4: the compound occurrence `grand`+`ma` (lexeme
`grandma`, a title-subset term) with no determiner and the morphological
entries after both its start and its end tagged `n:prop` is still counted
bare-argument — the override never applies to compound occurrences. -/
theorem c4_counterexample :
    (processUtterance " I saw grand ma ."
        [("pro", "i"), ("v", "see"), ("n", "grand"), ("n:prop", "peggy"),
          ("n:prop", "sue")]).map
      (fun o => (o.lex, o.label, o.isCompound, o.wnIdx)) =
      [("grandma", Label.bareArgument, true, 2)] ∧
    "grandma" ∈ TITLE_KINSHIP ∧
    is_followed_by_proper_noun
      [("pro", "i"), ("v", "see"), ("n", "grand"), ("n:prop", "peggy"),
        ("n:prop", "sue")] 2 = true ∧
    is_followed_by_proper_noun
      [("pro", "i"), ("v", "see"), ("n", "grand"), ("n:prop", "peggy"),
        ("n:prop", "sue")] 3 = true ∧
    has_determiner (utterWordNorm " I saw grand ma .")
      (utterWordRaw " I saw grand ma .") 2 = false := by
  decide

/-- C4 (amended): for every non-vocative **single-token** occurrence of a
title-subset term, a present morphological tier whose entry after the aligned
position is tagged `n:prop` makes the occurrence determined-argument rather
than bare; determiner detection takes priority (an occurrence passing the
determiner test is determined for any tier); compound occurrences are never
subject to the override.  In particular `auntie` in `*MOT: I saw Auntie
Sarah .` with an `n:prop` successor and no determiner is determined. -/
theorem c4_title_name_override :
    (∀ (utter : String) (mor : List (String × String)) (o : Occ),
      o ∈ processUtterance utter mor → o.isCompound = false →
      o.label ≠ Label.vocative → o.lex ∈ TITLE_KINSHIP → mor ≠ [] →
      o.wnIdx < mor.length → is_followed_by_proper_noun mor o.wnIdx = true →
      o.label = Label.determinedArgument) ∧
    (∀ (utter : String) (mor : List (String × String)) (o : Occ),
      o ∈ processUtterance utter mor → o.label ≠ Label.vocative →
      has_determiner (utterWordNorm utter) (utterWordRaw utter) o.wnIdx = true →
      o.label = Label.determinedArgument) ∧
    (classifyLine "*MOT: I saw Auntie Sarah ."
        [("pro", "i"), ("v", "see"), ("n", "auntie"), ("n:prop", "sarah")]).map
      (fun o => (o.lex, o.label)) = [("auntie", Label.determinedArgument)] := by
  refine ⟨?_, ?_, by decide⟩
  · intro utter mor o ho hc hnv ht hm hlt hfp
    have htt : titleTest mor o.lex o.wnIdx = true := by
      simp [titleTest, ht, hlt, hfp, List.isEmpty_iff, hm]
    rw [(processUtterance_spec utter mor o ho).2.2 hnv]
    exact Or.inr ⟨hc, htt⟩
  · intro utter mor o ho hnv hd
    rw [(processUtterance_spec utter mor o ho).2.2 hnv]
    exact Or.inl hd

/-- Witness for C4 at the `auntie` occurrence of `*MOT: I saw Auntie Sarah .`. -/
theorem c4_title_name_override_witness :
    ({ lex := "auntie", label := Label.determinedArgument, startTok := 2,
        endTok := 2, wnIdx := 2, isCompound := false } : Occ) ∈
          processUtterance " I saw Auntie Sarah ."
            [("pro", "i"), ("v", "see"), ("n", "auntie"), ("n:prop", "sarah")] ∧
    Label.determinedArgument = Label.determinedArgument :=
  ⟨by decide,
    c4_title_name_override.1 " I saw Auntie Sarah ."
      [("pro", "i"), ("v", "see"), ("n", "auntie"), ("n:prop", "sarah")]
      { lex := "auntie", label := Label.determinedArgument, startTok := 2,
        endTok := 2, wnIdx := 2, isCompound := false }
      (by decide) (by decide) (by decide) (by decide) (by decide) (by decide)
      (by decide)⟩

/-! ## C10 -/

/-- C10: a compound (two-token) occurrence is never subject to the title+name
override — non-vocative, it is determined exactly on the determiner test, for
any morphological tier; in particular `grand`+`ma` with an `n:prop` successor
entry and no determiner stays bare-argument. -/
theorem c10_compound_never_overridden :
    (∀ (utter : String) (mor : List (String × String)) (o : Occ),
      o ∈ processUtterance utter mor → o.isCompound = true →
      o.label ≠ Label.vocative →
      (o.label = Label.determinedArgument ↔
        has_determiner (utterWordNorm utter) (utterWordRaw utter) o.wnIdx =
          true)) ∧
    (processUtterance " I saw grand ma ."
        [("pro", "i"), ("v", "see"), ("n", "grand"), ("n:prop", "peggy")]).map
      (fun o => (o.lex, o.label, o.isCompound)) =
      [("grandma", Label.bareArgument, true)] ∧
    "grandma" ∈ TITLE_KINSHIP ∧
    is_followed_by_proper_noun
      [("pro", "i"), ("v", "see"), ("n", "grand"), ("n:prop", "peggy")] 2 =
      true := by
  refine ⟨?_, by decide, by decide, by decide⟩
  intro utter mor o ho hc hnv
  rw [(processUtterance_spec utter mor o ho).2.2 hnv]
  constructor
  · rintro (h | ⟨hf, _⟩)
    · exact h
    · rw [hc] at hf
      cases hf
  · exact Or.inl

/-- Witness for C10 at the `grandma` occurrence of ` I saw grand ma .`. -/
theorem c10_compound_never_overridden_witness :
    ({ lex := "grandma", label := Label.bareArgument, startTok := 2,
        endTok := 3, wnIdx := 2, isCompound := true } : Occ) ∈
          processUtterance " I saw grand ma ."
            [("pro", "i"), ("v", "see"), ("n", "grand"), ("n:prop", "peggy")] ∧
    (Label.bareArgument = Label.determinedArgument ↔
      has_determiner (utterWordNorm " I saw grand ma .")
        (utterWordRaw " I saw grand ma .") 2 = true) :=
  ⟨by decide,
    c10_compound_never_overridden.1 " I saw grand ma ."
      [("pro", "i"), ("v", "see"), ("n", "grand"), ("n:prop", "peggy")]
      { lex := "grandma", label := Label.bareArgument, startTok := 2,
        endTok := 3, wnIdx := 2, isCompound := true }
      (by decide) (by decide) (by decide)⟩

/-! ## C5 -/

/-- Counterexample for C5: with a morphological tier shifted right by one
clitic entry, the counting classifier consults the exact expected position,
finds no `n:prop` successor there, and labels `auntie` bare-argument — while
the ±2-window search of the diagnostic script does locate the `auntie` entry
and its `n:prop` successor.  The classifier therefore does **not** search a
window around the expected position. -/
theorem c5_counterexample :
    (processUtterance " I saw auntie Sarah ."
        [("pro", "i"), ("aux", "be"), ("v", "see"), ("n", "auntie"),
          ("n:prop", "sarah")]).map
      (fun o => (o.lex, o.label)) = [("auntie", Label.bareArgument)] ∧
    windowProp
      [("pro", "i"), ("aux", "be"), ("v", "see"), ("n", "auntie"),
        ("n:prop", "sarah")] 2 "auntie" = true ∧
    is_followed_by_proper_noun
      [("pro", "i"), ("aux", "be"), ("v", "see"), ("n", "auntie"),
        ("n:prop", "sarah")] 2 = false := by
  decide

/-- C5 (amended): the counting classifier requires exact index equality — a
non-vocative single-token occurrence with no determiner is determined exactly
when the title test at its own expected position succeeds; the ±2-window
search appears only in the diagnostic script `check_aunt_mor.py`, whose
`findInWindow` inspects exactly the positions `max(0, i-2) ≤ mi < min(len,
i+3)`; on the shifted tier the window search finds the title+name pattern
while the classifier's exact consultation does not. -/
theorem c5_exact_index_vs_window :
    (∀ (utter : String) (mor : List (String × String)) (o : Occ),
      o ∈ processUtterance utter mor → o.isCompound = false →
      o.label ≠ Label.vocative →
      has_determiner (utterWordNorm utter) (utterWordRaw utter) o.wnIdx =
        false →
      (o.label = Label.determinedArgument ↔
        titleTest mor o.lex o.wnIdx = true)) ∧
    (∀ (mor : List (String × String)) (i : ℕ) (normed : String) (mi : ℕ),
      findInWindow mor i normed = some mi →
      i ≤ mi + 2 ∧ mi < i + 3 ∧ mi < mor.length) ∧
    (windowProp
        [("pro", "i"), ("aux", "be"), ("v", "see"), ("n", "auntie"),
          ("n:prop", "sarah")] 2 "auntie" = true ∧
      titleTest
        [("pro", "i"), ("aux", "be"), ("v", "see"), ("n", "auntie"),
          ("n:prop", "sarah")] "auntie" 2 = false) := by
  refine ⟨?_, ?_, by decide, by decide⟩
  · intro utter mor o ho hc hnv hd
    rw [(processUtterance_spec utter mor o ho).2.2 hnv]
    simp [hd, hc]
  · intro mor i normed mi hfind
    simp only [findInWindow] at hfind
    have hmem := List.mem_of_find?_eq_some hfind
    rw [List.mem_range'_1] at hmem
    omega

/-- Witness for C5: the window search on the shifted tier finds the `auntie`
entry at position 3 (within ±2 of the expected position 2, in range). -/
theorem c5_exact_index_vs_window_witness :
    findInWindow
        [("pro", "i"), ("aux", "be"), ("v", "see"), ("n", "auntie"),
          ("n:prop", "sarah")] 2 "auntie" = some 3 ∧
      (2 ≤ 3 + 2 ∧ 3 < 2 + 3 ∧ 3 <
        ([("pro", "i"), ("aux", "be"), ("v", "see"), ("n", "auntie"),
          ("n:prop", "sarah")] : List (String × String)).length) :=
  ⟨by decide,
    c5_exact_index_vs_window.2.1
      [("pro", "i"), ("aux", "be"), ("v", "see"), ("n", "auntie"),
        ("n:prop", "sarah")] 2 "auntie" 3 (by decide)⟩

/-! ## C8: sorting lemmas -/

/-- The first components of the enumerated pairs are the original values. -/
theorem epairs_mem_fst :
    ∀ (vs : List ℚ) (i : ℕ) (q : ℚ × ℕ), q ∈ epairs i vs → q.1 ∈ vs := by
  intro vs
  induction vs with
  | nil => intro i q hq; simp [epairs] at hq
  | cons v vs ih =>
    intro i q hq
    simp only [epairs, List.mem_cons] at hq
    rcases hq with hq | hq
    · subst hq; simp
    · exact List.mem_cons_of_mem _ (ih (i + 1) q hq)

/-- Enumeration transports a pairwise relation on values to the pairs. -/
theorem epairs_pairwise (R : ℚ → ℚ → Prop) :
    ∀ (vs : List ℚ) (i : ℕ), vs.Pairwise R →
      (epairs i vs).Pairwise (fun a b => R a.1 b.1) := by
  intro vs
  induction vs with
  | nil => intro i _; simp [epairs]
  | cons v vs ih =>
    intro i hp
    rw [List.pairwise_cons] at hp
    simp only [epairs, List.pairwise_cons]
    exact ⟨fun q hq => hp.1 q.1 (epairs_mem_fst vs (i + 1) q hq), ih (i + 1) hp.2⟩

/-- The second components of the enumerated pairs are the positions. -/
theorem epairs_map_snd :
    ∀ (vs : List ℚ) (i : ℕ),
      (epairs i vs).map (fun q => q.2) = List.range' i vs.length := by
  intro vs
  induction vs with
  | nil => intro i; simp [epairs]
  | cons v vs ih =>
    intro i
    simp only [epairs, List.map_cons, List.length_cons, List.range'_succ]
    rw [ih (i + 1)]

/-- The enumeration has the same length as the values. -/
theorem epairs_length :
    ∀ (vs : List ℚ) (i : ℕ), (epairs i vs).length = vs.length := by
  intro vs
  induction vs with
  | nil => intro i; rfl
  | cons v vs ih => intro i; simp [epairs, ih]

/-- The lexicographic order holds whenever the first components increase. -/
theorem pairLeB_of_fst_lt {a b : ℚ × ℕ} (h : a.1 < b.1) : pairLeB a b = true := by
  simp [pairLeB, h]

/-- The lexicographic order fails whenever the first components decrease. -/
theorem pairLeB_false_of_fst_gt {a b : ℚ × ℕ} (h : b.1 < a.1) :
    pairLeB a b = false := by
  simp only [pairLeB, Bool.or_eq_false_iff, Bool.and_eq_false_iff,
    decide_eq_false_iff_not]
  exact ⟨lt_asymm h, Or.inl (ne_of_gt h)⟩

/-- Inserting below the head of a sorted list puts the element first. -/
theorem sortPairs_sorted_id :
    ∀ l : List (ℚ × ℕ), l.Pairwise (fun a b => pairLeB a b = true) →
      sortPairs l = l := by
  intro l
  induction l with
  | nil => intro _; rfl
  | cons a l ih =>
    intro hp
    rw [List.pairwise_cons] at hp
    show insertPair a (sortPairs l) = a :: l
    rw [ih hp.2]
    cases l with
    | nil => rfl
    | cons b t => simp [insertPair, hp.1 b (by simp)]

/-- Inserting an element larger than everything appends it. -/
theorem insertPair_append (p : ℚ × ℕ) :
    ∀ l : List (ℚ × ℕ), (∀ q ∈ l, pairLeB p q = false) →
      insertPair p l = l ++ [p] := by
  intro l
  induction l with
  | nil => intro _; rfl
  | cons q t ih =>
    intro h
    simp only [insertPair, h q (by simp), Bool.false_eq_true, if_false,
      List.cons_append]
    rw [ih (fun r hr => h r (List.mem_cons_of_mem _ hr))]

/-- Insertion sort reverses a strictly decreasing pair list. -/
theorem sortPairs_rev_of_decreasing :
    ∀ l : List (ℚ × ℕ), l.Pairwise (fun a b => b.1 < a.1) →
      sortPairs l = l.reverse := by
  intro l
  induction l with
  | nil => intro _; rfl
  | cons a l ih =>
    intro hp
    rw [List.pairwise_cons] at hp
    show insertPair a (sortPairs l) = (a :: l).reverse
    rw [ih hp.2, List.reverse_cons]
    exact insertPair_append a l.reverse
      (fun q hq => pairLeB_false_of_fst_gt (hp.1 q (List.mem_reverse.mp hq)))

/-! ## C8: rank-assignment lemmas -/

/-- With strictly increasing first components every tie-group is a singleton,
so position `p` at sorted index `k` receives rank `k + 1`. -/
theorem rankAssign_singletons :
    ∀ (fuel : ℕ) (l : List (ℚ × ℕ)) (i : ℕ), l.length ≤ fuel →
      l.Pairwise (fun a b => a.1 < b.1) →
      rankAssign fuel l i = idxAssign (l.map (fun q => q.2)) i := by
  intro fuel
  induction fuel with
  | zero =>
    intro l i hl _
    rw [Nat.le_zero, List.length_eq_zero] at hl
    subst hl
    rfl
  | succ fuel ih =>
    intro l i hl hp
    match l with
    | [] => rfl
    | (v, p) :: rest =>
      rw [List.pairwise_cons] at hp
      have hrun : rest.takeWhile (fun q => decide (q.1 = v)) = [] := by
        cases rest with
        | nil => rfl
        | cons r t =>
          have : r.1 ≠ v := ne_of_gt (hp.1 r (by simp))
          simp [List.takeWhile_cons, this]
      have hdrop : rest.dropWhile (fun q => decide (q.1 = v)) = rest := by
        cases rest with
        | nil => rfl
        | cons r t =>
          have : r.1 ≠ v := ne_of_gt (hp.1 r (by simp))
          simp [List.dropWhile_cons, this]
      simp only [rankAssign, hrun, hdrop, List.length_nil, List.map_cons,
        List.map_nil, List.cons_append, List.nil_append]
      rw [ih rest (i + 1) (by simp at hl; omega) hp.2]
      simp only [idxAssign, List.map_cons]
      congr 2
      push_cast
      ring

/-- `idxAssign` pairs positions with the ranks `i+1, i+2, ...` in order. -/
theorem idxAssign_eq_zip :
    ∀ (ps : List ℕ) (i : ℕ),
      idxAssign ps i = ps.zip ((List.range' (i + 1) ps.length).map
        (fun m => (m : ℚ))) := by
  intro ps
  induction ps with
  | nil => intro i; rfl
  | cons p ps ih =>
    intro i
    simp only [idxAssign, List.length_cons, List.range'_succ, List.map_cons,
      List.zip_cons_cons]
    congr 1
    · congr 1
      push_cast
      ring
    · exact ih (i + 1)

/-! ## C8: writing the ranks back -/

/-- Sequential `list.set` writes preserve the length. -/
theorem foldl_set_length :
    ∀ (assigns : List (ℕ × ℚ)) (acc : List ℚ),
      (assigns.foldl (fun a pr => a.set pr.1 pr.2) acc).length = acc.length := by
  intro assigns
  induction assigns with
  | nil => intro acc; rfl
  | cons a rest ih =>
    intro acc
    rw [List.foldl_cons, ih, List.length_set]

/-- Reading a written slot: the getter of one `set`. -/
theorem getD_set (acc : List ℚ) (i : ℕ) (v : ℚ) (p : ℕ) (hp : p < acc.length) :
    (acc.set i v).getD p 0 = if i = p then v else acc.getD p 0 := by
  have hp' : p < (acc.set i v).length := by rw [List.length_set]; exact hp
  rw [List.getD_eq_getElem _ _ hp', List.getD_eq_getElem _ _ hp,
    List.getElem_set]

/-- Sequential `list.set` writes: the last write to a position wins, and an
untouched position keeps the initial value. -/
theorem foldl_set_getD :
    ∀ (assigns : List (ℕ × ℚ)) (acc : List ℚ) (p : ℕ), p < acc.length →
      (assigns.foldl (fun a pr => a.set pr.1 pr.2) acc).getD p 0 =
        (match assigns.reverse.find? (fun pr => decide (pr.1 = p)) with
          | some pr => pr.2
          | none => acc.getD p 0) := by
  intro assigns
  induction assigns with
  | nil => intro acc p hp; rfl
  | cons a rest ih =>
    intro acc p hp
    rw [List.foldl_cons, ih (acc.set a.1 a.2) p (by rw [List.length_set]; exact hp)]
    rw [List.reverse_cons, List.find?_append]
    cases h : rest.reverse.find? (fun pr => decide (pr.1 = p)) with
    | some pr => simp [h]
    | none =>
      simp only [h, Option.none_or]
      by_cases hap : a.1 = p
      · simp only [List.find?_cons, hap, decide_True]
        rw [getD_set acc p a.2 p hp, if_pos rfl]
      · simp only [List.find?_cons, hap, decide_False, List.find?_nil]
        rw [getD_set acc a.1 a.2 p hp, if_neg hap]

/-- `find?` on a list whose matching entry is unique returns that entry. -/
theorem find?_unique :
    ∀ (l : List (ℕ × ℚ)) (p : ℕ) (v : ℚ), (p, v) ∈ l →
      (∀ pr ∈ l, pr.1 = p → pr = (p, v)) →
      l.find? (fun pr => decide (pr.1 = p)) = some (p, v) := by
  intro l
  induction l with
  | nil => intro p v hm _; simp at hm
  | cons a rest ih =>
    intro p v hm hu
    by_cases ha : a.1 = p
    · have : a = (p, v) := hu a (by simp) ha
      subst this
      simp [List.find?_cons]
    · simp only [List.find?_cons, ha, decide_False]
      have hm' : (p, v) ∈ rest := by
        rcases List.mem_cons.mp hm with h | h
        · exact absurd (congrArg Prod.fst h.symm) ha
        · exact h
      exact ih p v hm' (fun pr hpr => hu pr (List.mem_cons_of_mem _ hpr))

/-- The write performed at position `p` when every tie-group is a singleton. -/
theorem assigned_value (A : List (ℕ × ℚ)) (acc : List ℚ) (p : ℕ) (v : ℚ)
    (hp : p < acc.length) (hmem : (p, v) ∈ A)
    (huniq : ∀ pr ∈ A, pr.1 = p → pr = (p, v)) :
    (A.foldl (fun a pr => a.set pr.1 pr.2) acc).getD p 0 = v := by
  rw [foldl_set_getD A acc p hp,
    find?_unique A.reverse p v (List.mem_reverse.mpr hmem)
      (fun pr hpr => huniq pr (List.mem_reverse.mp hpr))]

/-- Membership characterization of the rank assignments. -/
theorem idxAssign_mem :
    ∀ (ps : List ℕ) (i : ℕ) (pr : ℕ × ℚ),
      pr ∈ idxAssign ps i ↔
        ∃ k, ∃ _ : k < ps.length, pr = (ps[k], (i : ℚ) + k + 1) := by
  intro ps
  induction ps with
  | nil => intro i pr; simp [idxAssign]
  | cons p ps ih =>
    intro i pr
    simp only [idxAssign, List.mem_cons, ih (i + 1)]
    constructor
    · rintro (h | ⟨k, hk, h⟩)
      · refine ⟨0, by simp, ?_⟩
        subst h
        norm_num
      · refine ⟨k + 1, by simpa using hk, ?_⟩
        subst h
        simp only [List.getElem_cons_succ]
        congr 1
        push_cast
        ring
    · rintro ⟨k, hk, h⟩
      cases k with
      | zero =>
        left
        subst h
        norm_num
      | succ k =>
        right
        refine ⟨k, by simpa using hk, ?_⟩
        subst h
        simp only [List.getElem_cons_succ]
        congr 1
        push_cast
        ring

/-- `ranks` of a strictly increasing dataset is `[1, 2, ..., n]`. -/
theorem ranks_strictMono (x : List ℚ) (hx : x.Pairwise (· < ·)) :
    ranks x = rks x.length := by
  have hfst : (epairs 0 x).Pairwise (fun a b => a.1 < b.1) :=
    epairs_pairwise (· < ·) x 0 hx
  have hsort : sortPairs (epairs 0 x) = epairs 0 x :=
    sortPairs_sorted_id _ (hfst.imp fun h => pairLeB_of_fst_lt h)
  have hassign : rankAssign (x.length + 1) (epairs 0 x) 0 =
      idxAssign ((epairs 0 x).map (fun q => q.2)) 0 :=
    rankAssign_singletons _ _ 0 (by rw [epairs_length]; omega) hfst
  unfold ranks
  rw [hsort, hassign, epairs_map_snd]
  refine List.ext_getElem ?_ ?_
  · rw [foldl_set_length, List.length_replicate, rks, List.length_map,
      List.length_range]
  · intro p h1 h2
    rw [foldl_set_length, List.length_replicate] at h1
    have hv : ((idxAssign (List.range' 0 x.length) 0).foldl
        (fun a pr => a.set pr.1 pr.2) (List.replicate x.length 0)).getD p 0 =
        (0 : ℚ) + p + 1 := by
      refine assigned_value _ _ p _ (by rw [List.length_replicate]; exact h1)
        ?_ ?_
      · rw [idxAssign_mem]
        refine ⟨p, by simpa using h1, ?_⟩
        congr 1
        simp [List.getElem_range']
      · intro pr hpr hfst'
        rw [idxAssign_mem] at hpr
        obtain ⟨k, hk, hpr⟩ := hpr
        subst hpr
        simp only [List.getElem_range'] at hfst' ⊢
        have hk' : k = p := by omega
        subst hk'
        simp
    have hb : p < ((idxAssign (List.range' 0 x.length) 0).foldl
        (fun a pr => a.set pr.1 pr.2) (List.replicate x.length 0)).length := by
      rw [foldl_set_length, List.length_replicate]
      exact h1
    rw [List.getD_eq_getElem _ 0 hb] at hv
    rw [hv]
    simp only [rks, List.getElem_map, List.getElem_range]
    ring

/-- `ranks` of the reverse of a strictly increasing dataset is
`[n, n-1, ..., 1]`, i.e. position `p` receives `n - p`. -/
theorem ranks_strictMono_rev (x : List ℚ) (hx : x.Pairwise (· < ·)) :
    ranks x.reverse =
      (List.range x.length).map (fun k : ℕ => (x.length : ℚ) - (k : ℚ)) := by
  have hrevp : x.reverse.Pairwise (fun a b => b < a) :=
    List.pairwise_reverse.mpr hx
  have hpairs : (epairs 0 x.reverse).Pairwise (fun a b => b.1 < a.1) := by
    have := epairs_pairwise (fun a b => b < a) x.reverse 0 hrevp
    exact this
  have hsort : sortPairs (epairs 0 x.reverse) = (epairs 0 x.reverse).reverse :=
    sortPairs_rev_of_decreasing _ hpairs
  have hfst : ((epairs 0 x.reverse).reverse).Pairwise (fun a b => a.1 < b.1) :=
    List.pairwise_reverse.mpr hpairs
  have hassign : rankAssign (x.reverse.length + 1) ((epairs 0 x.reverse).reverse) 0 =
      idxAssign (((epairs 0 x.reverse).reverse).map (fun q => q.2)) 0 :=
    rankAssign_singletons _ _ 0
      (by rw [List.length_reverse, epairs_length]; omega) hfst
  have hsnd : ((epairs 0 x.reverse).reverse).map (fun q => q.2) =
      (List.range' 0 x.length).reverse := by
    rw [List.map_reverse, epairs_map_snd, List.length_reverse]
  unfold ranks
  rw [hsort, hassign, hsnd]
  have hn : x.reverse.length = x.length := List.length_reverse x
  refine List.ext_getElem ?_ ?_
  · rw [foldl_set_length, List.length_replicate, hn, List.length_map,
      List.length_range]
  · intro p h1 h2
    rw [foldl_set_length, List.length_replicate, hn] at h1
    have hv : ((idxAssign ((List.range' 0 x.length).reverse) 0).foldl
        (fun a pr => a.set pr.1 pr.2)
        (List.replicate x.reverse.length 0)).getD p 0 =
        (0 : ℚ) + (x.length - 1 - p : ℕ) + 1 := by
      refine assigned_value _ _ p _
        (by rw [List.length_replicate, hn]; exact h1) ?_ ?_
      · rw [idxAssign_mem]
        refine ⟨x.length - 1 - p,
          by simp only [List.length_reverse, List.length_range']; omega, ?_⟩
        congr 1
        rw [List.getElem_reverse]
        simp only [List.getElem_range', List.length_range']
        omega
      · intro pr hpr hfst'
        rw [idxAssign_mem] at hpr
        obtain ⟨k, hk, hpr⟩ := hpr
        have h1c : pr.1 = ((List.range' 0 x.length).reverse)[k] := by rw [hpr]
        have h2c : pr.2 = (0 : ℚ) + k + 1 := by rw [hpr]; push_cast; ring
        rw [List.getElem_reverse] at h1c
        simp only [List.getElem_range', List.length_range'] at h1c
        simp only [List.length_reverse, List.length_range'] at hk
        rw [hfst'] at h1c
        have hkp : k = x.length - 1 - p := by omega
        subst hkp
        rw [hpr]
        congr 1
        rw [List.getElem_reverse]
        simp only [List.getElem_range', List.length_range']
        omega
    have hb : p < ((idxAssign ((List.range' 0 x.length).reverse) 0).foldl
        (fun a pr => a.set pr.1 pr.2) (List.replicate x.reverse.length 0)).length := by
      rw [foldl_set_length, List.length_replicate, hn]
      exact h1
    rw [List.getD_eq_getElem _ 0 hb] at hv
    rw [hv, List.getElem_map, List.getElem_range]
    have hcast : ((x.length - 1 - p : ℕ) : ℚ) = (x.length : ℚ) - 1 - (p : ℚ) := by
      have h1' : (x.length - 1 - p : ℕ) = x.length - (1 + p) := by omega
      rw [h1', Nat.cast_sub (by omega)]
      push_cast
      ring
    rw [hcast]
    ring

/-! ## C8: Pearson on rank vectors -/

/-- Zipping a list with itself pairs each element with itself. -/
theorem zip_self_eq (r : List ℚ) : r.zip r = r.map (fun a : ℚ => (a, a)) := by
  induction r with
  | nil => rfl
  | cons a r ih => simp [ih]

/-- Zipping a list with its image pairs each element with its image. -/
theorem zip_map_self (f : ℚ → ℚ) (r : List ℚ) :
    r.zip (r.map f) = r.map (fun a : ℚ => (a, f a)) := by
  have h := List.zip_map' (fun a : ℚ => a) f r
  simpa using h

/-- Summing `d - a` over a list. -/
theorem sum_map_const_sub (g : List ℝ) (d : ℝ) :
    (g.map (fun a : ℝ => d - a)).sum = g.length * d - g.sum := by
  induction g with
  | nil => simp
  | cons a g ih =>
    simp only [List.map_cons, List.sum_cons, ih, List.length_cons]
    push_cast
    ring

/-- Summing negatives over a list. -/
theorem sum_map_neg (g : List ℚ) (f : ℚ → ℝ) :
    (g.map (fun a : ℚ => -(f a))).sum = -((g.map f).sum) := by
  induction g with
  | nil => simp
  | cons a g ih => simp [ih]; ring

/-- `pearson` of a non-constant vector with itself is exactly 1. -/
theorem pearson_self (r : List ℚ) (a b : ℚ) (ha : a ∈ r) (hb : b ∈ r)
    (hab : a ≠ b) : pearson r r = some 1 := by
  have hne : r.length ≠ 0 := by
    intro h
    rw [List.length_eq_zero] at h
    subst h
    simp at ha
  simp only [pearson]
  rw [if_neg hne]
  set m : ℝ := (List.sum (List.map (fun v : ℚ => (v : ℝ)) r)) / (r.length : ℝ)
    with hm
  have hnum : List.sum ((r.zip r).map
      (fun p : ℚ × ℚ => ((p.1 : ℝ) - m) * ((p.2 : ℝ) - m))) =
      List.sum (r.map (fun v : ℚ => ((v : ℝ) - m) ^ 2)) := by
    rw [zip_self_eq, List.map_map]
    refine congrArg List.sum (List.map_congr_left ?_)
    intro v _
    simp only [Function.comp_apply]
    ring
  rw [hnum]
  set S : ℝ := List.sum (r.map (fun v : ℚ => ((v : ℝ) - m) ^ 2)) with hS
  have hSpos : 0 < S := by
    have hc : ∃ c ∈ r, ((c : ℝ) - m) ≠ 0 := by
      by_contra hall
      push_neg at hall
      have ha' := sub_eq_zero.mp (hall a ha)
      have hb' := sub_eq_zero.mp (hall b hb)
      exact hab (by exact_mod_cast ha'.trans hb'.symm)
    obtain ⟨c, hcr, hc0⟩ := hc
    have hmem : ((c : ℝ) - m) ^ 2 ∈ r.map (fun v : ℚ => ((v : ℝ) - m) ^ 2) :=
      List.mem_map_of_mem _ hcr
    have hpos : 0 < ((c : ℝ) - m) ^ 2 :=
      lt_of_le_of_ne (sq_nonneg _) (Ne.symm (pow_ne_zero 2 hc0))
    have hnn : ∀ y ∈ r.map (fun v : ℚ => ((v : ℝ) - m) ^ 2), 0 ≤ y := by
      intro y hy
      obtain ⟨v, _, rfl⟩ := List.mem_map.mp hy
      exact sq_nonneg _
    exact lt_of_lt_of_le hpos (List.single_le_sum hnn _ hmem)
  have hsq : Real.sqrt S ≠ 0 := ne_of_gt (Real.sqrt_pos.mpr hSpos)
  rw [if_neg (by rintro (h | h) <;> exact hsq h)]
  rw [Real.mul_self_sqrt hSpos.le, div_self (ne_of_gt hSpos)]

/-- `pearson` of a non-constant vector with its reflection `c - ·` is
exactly -1. -/
theorem pearson_opposite (r : List ℚ) (c : ℚ) (a b : ℚ) (ha : a ∈ r)
    (hb : b ∈ r) (hab : a ≠ b) :
    pearson r (r.map (fun v : ℚ => c - v)) = some (-1) := by
  have hne : r.length ≠ 0 := by
    intro h
    rw [List.length_eq_zero] at h
    subst h
    simp at ha
  have hnR : ((r.length : ℝ)) ≠ 0 := Nat.cast_ne_zero.mpr hne
  simp only [pearson]
  rw [if_neg hne]
  set m : ℝ := (List.sum (List.map (fun v : ℚ => (v : ℝ)) r)) / (r.length : ℝ)
    with hm
  have hmy : (List.sum (List.map (fun v : ℚ => (v : ℝ))
      (r.map (fun v : ℚ => c - v)))) / (r.length : ℝ) = (c : ℝ) - m := by
    rw [List.map_map]
    have h2 : List.map ((fun v : ℚ => (v : ℝ)) ∘ (fun v : ℚ => c - v)) r =
        List.map ((fun a : ℝ => (c : ℝ) - a) ∘ (fun v : ℚ => (v : ℝ))) r := by
      refine List.map_congr_left ?_
      intro v _
      simp [Function.comp]
    rw [h2, ← List.map_map, sum_map_const_sub, List.length_map, hm]
    field_simp
    ring
  rw [hmy]
  have hnum : List.sum ((r.zip (r.map (fun v : ℚ => c - v))).map
      (fun p : ℚ × ℚ => ((p.1 : ℝ) - m) * ((p.2 : ℝ) - ((c : ℝ) - m)))) =
      -(List.sum (r.map (fun v : ℚ => ((v : ℝ) - m) ^ 2))) := by
    rw [zip_map_self, List.map_map, ← sum_map_neg]
    refine congrArg List.sum (List.map_congr_left ?_)
    intro v _
    simp only [Function.comp_apply]
    push_cast
    ring
  rw [hnum]
  have hdy : List.sum ((r.map (fun v : ℚ => c - v)).map
      (fun v : ℚ => ((v : ℝ) - ((c : ℝ) - m)) ^ 2)) =
      List.sum (r.map (fun v : ℚ => ((v : ℝ) - m) ^ 2)) := by
    rw [List.map_map]
    refine congrArg List.sum (List.map_congr_left ?_)
    intro v _
    simp only [Function.comp_apply]
    push_cast
    ring
  rw [hdy]
  set S : ℝ := List.sum (r.map (fun v : ℚ => ((v : ℝ) - m) ^ 2)) with hS
  have hSpos : 0 < S := by
    have hc : ∃ d ∈ r, ((d : ℝ) - m) ≠ 0 := by
      by_contra hall
      push_neg at hall
      have ha' := sub_eq_zero.mp (hall a ha)
      have hb' := sub_eq_zero.mp (hall b hb)
      exact hab (by exact_mod_cast ha'.trans hb'.symm)
    obtain ⟨d, hdr, hd0⟩ := hc
    have hmem : ((d : ℝ) - m) ^ 2 ∈ r.map (fun v : ℚ => ((v : ℝ) - m) ^ 2) :=
      List.mem_map_of_mem _ hdr
    have hpos : 0 < ((d : ℝ) - m) ^ 2 :=
      lt_of_le_of_ne (sq_nonneg _) (Ne.symm (pow_ne_zero 2 hd0))
    have hnn : ∀ y ∈ r.map (fun v : ℚ => ((v : ℝ) - m) ^ 2), 0 ≤ y := by
      intro y hy
      obtain ⟨v, _, rfl⟩ := List.mem_map.mp hy
      exact sq_nonneg _
    exact lt_of_lt_of_le hpos (List.single_le_sum hnn _ hmem)
  have hsq : Real.sqrt S ≠ 0 := ne_of_gt (Real.sqrt_pos.mpr hSpos)
  rw [if_neg (by rintro (h | h) <;> exact hsq h)]
  rw [Real.mul_self_sqrt hSpos.le, neg_div, div_self (ne_of_gt hSpos)]

/-! ## C8 -/

/-- Counterexample for C8: the claim fails for general non-empty datasets.
A singleton dataset has a zero denominator, so `spearman` returns `None`
rather than 1.0; and for the non-monotone dataset `[1, 3, 2]` the
reverse-order pairing yields rho = 1/2, not -1.0. -/
theorem c8_counterexample :
    spearman ([1] : List ℚ) [1] = none ∧
    spearman ([1, 3, 2] : List ℚ) (([1, 3, 2] : List ℚ).reverse) =
      some (1 / 2) := by
  have hr1 : ranks [1] = [1] := by
    norm_num [ranks, rankAssign, sortPairs, epairs, insertPair, pairLeB,
      List.takeWhile, List.dropWhile, List.replicate, List.set]
  have hr132 : ranks [1, 3, 2] = [1, 3, 2] := by
    norm_num [ranks, rankAssign, sortPairs, epairs, insertPair, pairLeB,
      List.takeWhile, List.dropWhile, List.replicate, List.set]
  have hr231 : ranks [2, 3, 1] = [2, 3, 1] := by
    norm_num [ranks, rankAssign, sortPairs, epairs, insertPair, pairLeB,
      List.takeWhile, List.dropWhile, List.replicate, List.set]
  have hrev : ([1, 3, 2] : List ℚ).reverse = [2, 3, 1] := by decide
  constructor
  · rw [spearman, if_neg (by simp : ¬([1] : List ℚ) = []), hr1]
    simp only [pearson]
    rw [if_neg (by norm_num : ¬([1] : List ℚ).length = 0)]
    rw [if_pos]
    left
    norm_num
  · rw [spearman, if_neg (by simp : ¬([1, 3, 2] : List ℚ) = []), hrev,
      hr132, hr231]
    simp only [pearson]
    rw [if_neg (by norm_num : ¬([1, 3, 2] : List ℚ).length = 0)]
    norm_num

/-- C8 (amended): for every dataset of at least two strictly increasing
values, `spearman` of the dataset against itself returns exactly 1 and
against its exact reverse-order pairing exactly -1.  (A singleton or constant
dataset returns `None`, and with ties or a non-monotone order the
reverse-pairing value can differ from -1.) -/
theorem c8_spearman_self_reverse :
    ∀ x : List ℚ, 2 ≤ x.length → x.Pairwise (· < ·) →
      spearman x x = some 1 ∧ spearman x x.reverse = some (-1) := by
  intro x hlen hmono
  have hxne : x ≠ [] := by
    intro h
    subst h
    simp at hlen
  have hone : (1 : ℚ) ∈ rks x.length := by
    rw [rks]
    exact List.mem_map.mpr ⟨0, List.mem_range.mpr (by omega), by norm_num⟩
  have htwo : (2 : ℚ) ∈ rks x.length := by
    rw [rks]
    exact List.mem_map.mpr ⟨1, List.mem_range.mpr (by omega), by norm_num⟩
  constructor
  · rw [spearman, if_neg hxne, ranks_strictMono x hmono]
    exact pearson_self _ 1 2 hone htwo (by norm_num)
  · rw [spearman, if_neg hxne, ranks_strictMono x hmono,
      ranks_strictMono_rev x hmono]
    have hmapeq : (List.range x.length).map
        (fun k : ℕ => (x.length : ℚ) - (k : ℚ)) =
        (rks x.length).map (fun v : ℚ => ((x.length : ℚ) + 1) - v) := by
      rw [rks, List.map_map]
      refine List.map_congr_left ?_
      intro k _
      simp only [Function.comp_apply]
      ring
    rw [hmapeq]
    exact pearson_opposite (rks x.length) ((x.length : ℚ) + 1) 1 2 hone htwo
      (by norm_num)

/-- Witness for C8 at the strictly increasing dataset `[1, 2, 3]`. -/
theorem c8_spearman_self_reverse_witness :
    (2 ≤ ([1, 2, 3] : List ℚ).length ∧
      ([1, 2, 3] : List ℚ).Pairwise (· < ·)) ∧
    (spearman [1, 2, 3] [1, 2, 3] = some 1 ∧
      spearman [1, 2, 3] (([1, 2, 3] : List ℚ).reverse) = some (-1)) :=
  ⟨⟨by decide, by decide⟩,
    c8_spearman_self_reverse [1, 2, 3] (by decide) (by decide)⟩

end Kinship
